import Mathlib

set_option autoImplicit false

/-!
# Verification of the SEO audit tool core

A shallow embedding of the three algorithmic components of the repository:

* the rule-based **scoring engine** (`/server/scoringEngine.js`):
  `clamp01`, `scoreCountRange`, `scoreRule`, `getGrade`, weight resolution
  and the per-section weighted aggregation;
* the **orchestrator** (`/server/runAudit.js`): the `median` helper and the
  `runAudit` pipeline with its per-stage failure isolation;
* the site **crawler** (`/server/crawler.js`): canonicalization, allowed-host
  derivation and widening, robots.txt `Disallow` parsing and matching,
  sitemap seeding, and the fuel-indexed BFS loop with diversity-biased
  enqueueing.

JavaScript numbers are modelled by `JNum` (finite rationals plus `NaN` and
the two infinities, with IEEE-style comparison/arithmetic on the cases the
code exercises); arbitrary JavaScript values that the code inspects with
`typeof` are modelled by `JsVal`.  External effects (Puppeteer navigation,
Lighthouse, PSI, the DOM signal producer) are modelled as oracle inputs:
the code under analysis only ever consumes their results.
-/

/-! ## JavaScript numbers and values -/

/-- A JavaScript number: `NaN`, `+Infinity`, `-Infinity`, or a finite value
(modelled as a rational; the source never depends on float rounding). -/
inductive JNum where
  | nan
  | inf
  | ninf
  | fin (q : ℚ)
  deriving DecidableEq, Repr

namespace JNum

/-- JS `x <= y` (any comparison with `NaN` is false). -/
def jle : JNum → JNum → Bool
  | nan, _ => false
  | _, nan => false
  | ninf, _ => true
  | inf, inf => true
  | inf, _ => false
  | fin _, inf => true
  | fin _, ninf => false
  | fin a, fin b => decide (a ≤ b)

/-- JS `x < y` (any comparison with `NaN` is false). -/
def jlt : JNum → JNum → Bool
  | nan, _ => false
  | _, nan => false
  | ninf, ninf => false
  | ninf, _ => true
  | inf, _ => false
  | fin _, inf => true
  | fin _, ninf => false
  | fin a, fin b => decide (a < b)

/-- JS `x >= y`. -/
def jge (x y : JNum) : Bool := jle y x

/-- JS subtraction. -/
def jsub : JNum → JNum → JNum
  | nan, _ => nan
  | _, nan => nan
  | inf, inf => nan
  | inf, _ => inf
  | ninf, ninf => nan
  | ninf, _ => ninf
  | fin _, inf => ninf
  | fin _, ninf => inf
  | fin a, fin b => fin (a - b)

/-- JS addition. -/
def jadd : JNum → JNum → JNum
  | nan, _ => nan
  | _, nan => nan
  | inf, ninf => nan
  | ninf, inf => nan
  | inf, _ => inf
  | _, inf => inf
  | ninf, _ => ninf
  | _, ninf => ninf
  | fin a, fin b => fin (a + b)

/-- JS multiplication. -/
def jmul : JNum → JNum → JNum
  | nan, _ => nan
  | _, nan => nan
  | inf, inf => inf
  | inf, ninf => ninf
  | ninf, inf => ninf
  | ninf, ninf => inf
  | inf, fin b => if b > 0 then inf else if b < 0 then ninf else nan
  | fin a, inf => if a > 0 then inf else if a < 0 then ninf else nan
  | ninf, fin b => if b > 0 then ninf else if b < 0 then inf else nan
  | fin a, ninf => if a > 0 then ninf else if a < 0 then inf else nan
  | fin a, fin b => fin (a * b)

/-- JS division (`0` here is JS `+0`; the source never produces `-0`). -/
def jdiv : JNum → JNum → JNum
  | nan, _ => nan
  | _, nan => nan
  | inf, inf => nan
  | inf, ninf => nan
  | ninf, inf => nan
  | ninf, ninf => nan
  | inf, fin b => if b ≥ 0 then inf else ninf
  | ninf, fin b => if b ≥ 0 then ninf else inf
  | fin _, inf => fin 0
  | fin _, ninf => fin 0
  | fin a, fin b =>
      if b = 0 then (if a > 0 then inf else if a < 0 then ninf else nan)
      else fin (a / b)

/-- JS `isFinite`. -/
def isFin : JNum → Bool
  | fin _ => true
  | _ => false

/-- JS truthiness of a number (`0` and `NaN` are falsy). -/
def truthy : JNum → Bool
  | nan => false
  | fin q => decide (q ≠ 0)
  | _ => true

end JNum

/-- A JavaScript value as inspected by the scoring engine / median helper:
`undefined`, `null`, a boolean, a number, or a string.  (Objects/arrays never
reach the scrutinised code paths as raw signal values.) -/
inductive JsVal where
  | jsUndefined
  | null
  | bool (b : Bool)
  | num (n : JNum)
  | str (s : String)
  deriving DecidableEq, Repr

namespace JsVal

/-- JS loose `v == null` (true exactly for `null` and `undefined`). -/
def isNullish : JsVal → Bool
  | jsUndefined => true
  | null => true
  | _ => false

/-- JS `typeof v === 'number'` (`NaN` and infinities are numbers). -/
def isNumber : JsVal → Bool
  | num _ => true
  | _ => false

end JsVal

/-! ## String helpers (used by the scoring engine and the crawler) -/

/-- JS `s.toLowerCase()` (ASCII suffices for the strings the code handles). -/
def lowerStr (s : String) : String := ⟨s.data.map Char.toLower⟩

/-- The regex `/^(true|1|yes|y)$/i` of the boolean rule kind. -/
def boolStrTest (s : String) : Bool :=
  lowerStr s = "true" || lowerStr s = "1" || lowerStr s = "yes" || lowerStr s = "y"

/-! ## Scoring engine (`/server/scoringEngine.js`) -/

/-- A rubric rule (`{ name, key, type, weight, idealRange, description }`).
`rtype` models `rule.type` (`none` = property absent); `weight` is kept as a
raw JS value because the engine checks `typeof rule.weight === 'number'`. -/
structure Rule where
  key : String
  rtype : Option String
  weight : JsVal
  idealRange : Option (JNum × JNum)
  name : Option String
  description : Option String
  deriving DecidableEq, Repr

/-- `rule.type || 'normalized'` (the empty string is falsy in JS). -/
def effType (rule : Rule) : String :=
  match rule.rtype with
  | none => "normalized"
  | some s => if s = "" then "normalized" else s

/-- `clamp01`: finite numbers are clamped to `[0,1]`; everything else
(non-numbers, `NaN`, infinities) maps to `0`. -/
def clamp01 (v : JsVal) : ℚ :=
  match v with
  | .num (.fin q) => max 0 (min 1 q)
  | _ => 0

/-- `clamp01` applied to a bare JS number. -/
def clamp01N (n : JNum) : ℚ := clamp01 (.num n)

/-- `scoreCountRange(raw, idealRange)`: triangle scoring around the ideal
closed interval `[min, max]`. -/
def scoreCountRange (raw : JsVal) (idealRange : Option (JNum × JNum)) : ℚ :=
  if raw.isNullish then 0
  else
    match idealRange with
    | none => clamp01 raw
    | some (mn, mx) =>
      match raw with
      | .num n =>
        if mn.jge mx then (if n.jge mn then 1 else 0)
        else if n.jge mn && n.jle mx then 1
        else
          let width := mx.jsub mn
          let dist := if n.jlt mn then mn.jsub n else n.jsub mx
          clamp01N ((JNum.fin 1).jsub (dist.jdiv width))
      | _ => 0

/-- The Lighthouse category scores handed to the engine via
`opts.lighthouse` (each may be a number or `null`). -/
structure LHCats where
  performance : JsVal
  accessibility : JsVal
  bestPractices : JsVal
  seo : JsVal
  deriving DecidableEq, Repr

/-- The Lighthouse backfill at the head of `scoreRule`: a nullish raw value
of a `lighthouse_score` rule is replaced by the matching Lighthouse
category. -/
def lhSubstitute (rawValue : JsVal) (rule : Rule) (t : String) (lh : Option LHCats) : JsVal :=
  match lh with
  | some l =>
      if rawValue.isNullish && t = "lighthouse_score" then
        if rule.key = "pageSpeedScore" then l.performance
        else if rule.key = "accessibilityScore" then l.accessibility
        else if rule.key = "bestPracticesScore" then l.bestPractices
        else if rule.key = "seoScore" then l.seo
        else rawValue
      else rawValue
  | none => rawValue

/-- The `switch (t)` of `scoreRule`: the scoring formula per rule kind
(the final `else` is the engine's safe default for unrecognized kinds). -/
def scoreByKind (t : String) (v : JsVal) (idealRange : Option (JNum × JNum)) : ℚ :=
  if t = "boolean" then
    match v with
    | .bool b => if b then 1 else 0
    | .num n => if n.jge (.fin (1/2)) then 1 else 0
    | .str s => if boolStrTest s then 1 else 0
    | _ => 0
  else if t = "normalized" || t = "scaled_match" || t = "enum_quality" then
    clamp01 v
  else if t = "normalized_inverse" || t = "numeric_inverse" then
    1 - clamp01 v
  else if t = "count_range" then
    scoreCountRange v idealRange
  else if t = "lighthouse_score" then
    clamp01 v
  else
    clamp01 v

/-- `scoreRule(rawValue, rule, lh)`: per-rule score.  A missing raw value is
backfilled from the Lighthouse categories for `lighthouse_score` rules, then
the rule kind selects the scoring formula. -/
def scoreRule (rawValue : JsVal) (rule : Rule) (lh : Option LHCats) : ℚ :=
  let t := effType rule
  scoreByKind t (lhSubstitute rawValue rule t lh) rule.idealRange

/-- One grade threshold entry. -/
structure Threshold where
  grade : String
  minScore : ℚ
  deriving DecidableEq, Repr

/-- `DEFAULT_THRESHOLDS` of the engine. -/
def DEFAULT_THRESHOLDS : List Threshold :=
  [⟨"S", 95/100⟩, ⟨"A", 85/100⟩, ⟨"B", 75/100⟩, ⟨"C", 60/100⟩,
   ⟨"D", 40/100⟩, ⟨"F", 0⟩]

/-- `getGrade(score, thresholds)`: first entry (in list order) whose
`minScore` the score reaches; `'F'` when none matches; empty threshold
lists fall back to `DEFAULT_THRESHOLDS`. -/
def getGrade (score : JNum) (thresholds : List Threshold) : String :=
  let th := if thresholds.isEmpty then DEFAULT_THRESHOLDS else thresholds
  match th.find? (fun t => score.jge (.fin t.minScore)) with
  | some t => t.grade
  | none => "F"

/-- Signal-map lookup: `signals[key]` is `undefined` when absent. -/
def sigGet (m : List (String × JsVal)) (k : String) : JsVal :=
  match m.find? (fun p => p.1 = k) with
  | some p => p.2
  | none => .jsUndefined

/-- Effective rule weight:
`(typeof rule.weight === 'number' ? rule.weight : undefined)
   ?? (typeof typeWeights[key] === 'number' ? typeWeights[key] : 1)`. -/
def resolveWeight (ruleWeight overrideWeight : JsVal) : JNum :=
  match ruleWeight with
  | .num n => n
  | _ =>
    match overrideWeight with
    | .num m => m
    | _ => .fin 1

/-- `rule.name || key` / `rule.description || rule.name || ''` style fallback
(empty strings are falsy). -/
def orElseStr (a : Option String) (b : String) : String :=
  match a with
  | some s => if s = "" then b else s
  | none => b

/-- One per-rule result entry pushed onto `sec.signals`. -/
structure SigDetail where
  id : String
  label : String
  value : JsVal
  score : ℚ
  weight : JNum
  weightedScore : JNum
  stype : String
  description : String
  deriving DecidableEq, Repr

/-- A scored section (`{ total, max, weightedScore, grade, signals }`). -/
structure SectionOut where
  total : JNum
  max : JNum
  weightedScore : JNum
  grade : String
  signals : List SigDetail
  deriving DecidableEq, Repr

/-- A rubric section as the engine reads it; `none` fields model absent
properties (note an empty JS array is truthy, so `[]` does not trigger the
`||` fallbacks — hence `Option` rather than emptiness tests). -/
structure RSection where
  thresholds : Option (List Threshold)
  signals : Option (List Rule)
  weightsBySiteType : Option (List (String × List (String × JsVal)))
  deriving DecidableEq, Repr

/-- The fold body of the per-section rule loop. -/
def ruleStep (signals : List (String × JsVal)) (typeWeights : List (String × JsVal))
    (lh : Option LHCats) (acc : JNum × JNum × List SigDetail) (rule : Rule) :
    JNum × JNum × List SigDetail :=
  let key := rule.key
  let weight := resolveWeight rule.weight (sigGet typeWeights key)
  let raw := sigGet signals key
  let score := scoreRule raw rule lh
  let weighted := (JNum.fin score).jmul weight
  (acc.1.jadd weighted, acc.2.1.jadd weight,
   acc.2.2 ++ [{ id := key, label := orElseStr rule.name key, value := raw,
                 score := score, weight := weight, weightedScore := weighted,
                 stype := effType rule,
                 description := orElseStr rule.description (orElseStr rule.name "") }])

/-- `section.thresholds || rubricRaw?.thresholds || DEFAULT_THRESHOLDS`. -/
def resolvedThresholds (sec : RSection) (rubricThresholds : Option (List Threshold)) :
    List Threshold :=
  (sec.thresholds.orElse fun _ => rubricThresholds).getD DEFAULT_THRESHOLDS

/-- `(section.weightsBySiteType || rubricRaw?.weightsBySiteType || {})[siteType] || {}`. -/
def resolvedTypeWeights (sec : RSection)
    (rubricWeights : Option (List (String × List (String × JsVal))))
    (siteType : String) : List (String × JsVal) :=
  let weightsByType := (sec.weightsBySiteType.orElse fun _ => rubricWeights).getD []
  match weightsByType.find? (fun p => p.1 = siteType) with
  | some p => p.2
  | none => []

/-- Evaluation of one rubric section (the body of the engine's section
loop): weighted accumulation, `weightedScore = max ? total/max : 0`, grade
lookup. -/
def sectionEval (sec : RSection) (rubricThresholds : Option (List Threshold))
    (rubricWeights : Option (List (String × List (String × JsVal))))
    (signals : List (String × JsVal)) (siteType : String) (lh : Option LHCats) :
    SectionOut :=
  let thresholds := resolvedThresholds sec rubricThresholds
  let typeWeights := resolvedTypeWeights sec rubricWeights siteType
  let rules := sec.signals.getD []
  let acc := rules.foldl (ruleStep signals typeWeights lh) (.fin 0, .fin 0, [])
  let normalized := if acc.2.1.truthy then acc.1.jdiv acc.2.1 else .fin 0
  { total := acc.1, max := acc.2.1, weightedScore := normalized,
    grade := getGrade normalized thresholds, signals := acc.2.2 }

/-- `scoringEngine(signals, siteType, opts)` on an already-resolved,
shape-normalized rubric (the module-probing loader is filesystem I/O and is
out of the embedding; the rubric is passed in explicitly). -/
def scoringEngine (rubric : List (String × RSection))
    (rubricThresholds : Option (List Threshold))
    (rubricWeights : Option (List (String × List (String × JsVal))))
    (signals : List (String × JsVal)) (siteType : String) (lh : Option LHCats) :
    List (String × SectionOut) :=
  rubric.map fun p => (p.1, sectionEval p.2 rubricThresholds rubricWeights signals siteType lh)

/-! ## The `median` helper (`/server/runAudit.js`) -/

/-- `typeof x === 'number' && isFinite(x)`, extracting the value. -/
def finPart (v : JsVal) : Option ℚ :=
  match v with
  | .num (.fin q) => some q
  | _ => none

/-- The finite numeric entries of a sample, in order. -/
def finiteVals (arr : List JsVal) : List ℚ := arr.filterMap finPart

/-- `median(arr)`: keep finite numbers, sort ascending, return the middle
element (odd length) or the mean of the two middle elements (even length);
`null` for an empty filtered sample. -/
def median (arr : List JsVal) : Option ℚ :=
  let a := List.insertionSort (· ≤ ·) (finiteVals arr)
  if a.isEmpty then none
  else
    let mid := a.length / 2
    if a.length % 2 = 1 then some (a.getD mid 0)
    else some ((a.getD (mid - 1) 0 + a.getD mid 0) / 2)

/-! ## URL model and helpers for the crawler (`/server/crawler.js`) -/

/-- A parsed absolute URL as WHATWG `new URL` yields it (the fields the
crawler reads; `frag` is the `#hash`, `search` the `?query`). -/
structure RawUrl where
  https : Bool
  host : String
  pathname : String
  search : String
  frag : String
  deriving DecidableEq, Repr

/-- A canonical URL: the identity used for crawl dedup (fragment and query
dropped, trailing slashes stripped). -/
structure CUrl where
  https : Bool
  host : String
  pathname : String
  deriving DecidableEq, Repr

/-- `u.pathname.replace(/\/+$/, '')` applied when the pathname is not `/`. -/
def stripTrailingSlashes (p : String) : String :=
  if p = "/" then p else ⟨(p.data.reverse.dropWhile (fun c => c = '/')).reverse⟩

/-- `canonicalize(raw)`: drop fragment and query, normalize the trailing
slash (except for the root path). -/
def canonicalize (u : RawUrl) : CUrl :=
  { https := u.https, host := u.host, pathname := stripTrailingSlashes u.pathname }

/-- A candidate hyperlink after resolution against the base URL.  `junk`
covers hrefs the crawler drops before or at parse time (`mailto:`, `tel:`,
`javascript:`, fragment-only, unparseable, non-http(s) protocol); `asset`
records whether the canonicalized URL matches the binary/asset file
extension regex (string-level extension testing is delegated to the
oracle that produced the candidate). -/
inductive Cand where
  | junk
  | link (u : RawUrl) (asset : Bool)
  deriving DecidableEq, Repr

/-- `host.replace(/^www\./i, '')`. -/
def stripWww (host : String) : String :=
  if List.isPrefixOf "www.".data (lowerStr host).data then ⟨host.data.drop 4⟩ else host

/-- Insertion-ordered set add (JS `Set.prototype.add`). -/
def setAdd {α : Type} [DecidableEq α] (l : List α) (x : α) : List α :=
  if x ∈ l then l else l ++ [x]

/-- A JS `Set` built from a list (first occurrence wins, order kept). -/
def setOfList {α : Type} [DecidableEq α] (l : List α) : List α :=
  l.foldl setAdd []

/-- `buildAllowedHosts(host)`: the host, its bare (non-www) form and its
`www.` form, all lower-cased. -/
def buildAllowedHosts (host : String) : List String :=
  let bare := stripWww host
  setOfList [lowerStr host, lowerStr bare, lowerStr ("www." ++ bare)]

/-- `normalizeLink(href, baseUrl, allowedHosts)`: keep only http(s) links
whose host is currently allowed, canonicalize, drop asset URLs. -/
def normalizeLink (allowedHosts : List String) (c : Cand) : Option CUrl :=
  match c with
  | .junk => none
  | .link u asset =>
      if lowerStr u.host ∈ allowedHosts then
        if asset then none else some (canonicalize u)
      else none


/-- Split a character list at every occurrence of `sep` (JS `split`). -/
def splitOnCharAux (sep : Char) : List Char → List Char → List (List Char)
  | [], acc => [acc.reverse]
  | c :: cs, acc =>
      if c = sep then acc.reverse :: splitOnCharAux sep cs []
      else splitOnCharAux sep cs (c :: acc)

/-- JS `s.split(sep)` for a single-character separator. -/
def splitOnChar (sep : Char) (l : List Char) : List (List Char) :=
  splitOnCharAux sep l []

/-- JS `s.trim()`. -/
def trimChars (l : List Char) : List Char :=
  ((l.dropWhile Char.isWhitespace).reverse.dropWhile Char.isWhitespace).reverse

/-- JS `s.trim()` on strings. -/
def trimStr (s : String) : String := ⟨trimChars s.data⟩

/-- First path segment of the canonical URL, lower-cased (`bucketKey`:
`u.pathname.split('/').filter(Boolean)[0] || ''`, then `toLowerCase`). -/
def bucketKey (u : CUrl) : String :=
  lowerStr ⟨((splitOnChar '/' u.pathname.data).filter (fun seg => seg ≠ [])).headD []⟩

/-! ## robots.txt parsing and matching -/

/-- One step of the `parseRobots` line loop.  State: (currently inside a
`User-agent: *` block, collected Disallow paths).  The line arrives already
trimmed. -/
def parseRobotsLine (st : Bool × List String) (line : String) : Bool × List String :=
  if line = "" || List.isPrefixOf "#".data line.data then st
  else
    let lower := lowerStr line
    if List.isPrefixOf "user-agent:".data lower.data then
      let ua := lowerStr (trimStr ⟨(splitOnChar ':' line.data).getD 1 []⟩)
      (ua = "*" || ua = "\"*\"", st.2)
    else if st.1 && List.isPrefixOf "disallow:".data lower.data then
      let path := trimStr ⟨(splitOnChar ':' line.data).getD 1 []⟩
      if path = "" then st else (st.1, st.2 ++ [path])
    else st

/-- `parseRobots(robotsTxt)`: collect `Disallow` path patterns listed under
a `User-agent: *` block (split into lines, trim, scan). -/
def parseRobots (robotsTxt : String) : List String :=
  (((splitOnChar '\n' robotsTxt.data).map fun l => trimStr ⟨l⟩).foldl
    parseRobotsLine (false, [])).2

/-- Remainder of `s` after the first occurrence of `pat` (the matching
strategy of a leftmost regex `.*pat`); `none` when `pat` never occurs. -/
def subAfter? (pat : List Char) : List Char → Option (List Char)
  | [] => if pat.isEmpty then some [] else none
  | c :: cs =>
      if List.isPrefixOf pat (c :: cs) then some ((c :: cs).drop pat.length)
      else subAfter? pat cs

/-- Match `.*c₁.*c₂...` against `s` (first-occurrence strategy, complete
for this pattern shape). -/
def matchTail : List (List Char) → List Char → Bool
  | [], _ => true
  | c :: cs, s =>
      match subAfter? c s with
      | some rest => matchTail cs rest
      | none => false

/-- Anchored match of the chunked pattern `^c₀.*c₁.*c₂...` against `s`. -/
def chunkMatch (chunks : List (List Char)) (s : List Char) : Bool :=
  match chunks with
  | [] => true
  | c :: cs => List.isPrefixOf c s && matchTail cs (s.drop c.length)

/-- The pattern a Disallow rule compiles to: regex specials are escaped (so
they are literal — a `?` in a rule would stay a regex quantifier in the
source, but no such rule occurs in the analysed configuration), `*` becomes
`.*`, and a leading `/` is ensured; we keep the literal runs between
wildcards. -/
def ruleChunks (rule : String) : List (List Char) :=
  let r := if List.isPrefixOf "/".data rule.data then rule else "/" ++ rule
  splitOnChar '*' r.data

/-- `pathDisallowed(pathname, disallows)`: some rule's anchored pattern
matches the pathname. -/
def pathDisallowed (pathname : String) (disallows : List String) : Bool :=
  disallows.any fun rule => chunkMatch (ruleChunks rule) pathname.data

/-! ## Crawler state machine -/

/-- `{ internal, external, total }` link counts of a page. -/
structure LinkCounts where
  internal : Nat
  external : Nat
  total : Nat
  deriving DecidableEq, Repr

/-- A crawled page record (canonical URL, HTML, link counts). -/
structure Page where
  url : CUrl
  html : String
  links : LinkCounts
  deriving DecidableEq, Repr

/-- The observable outcome of one per-page navigate/widen/extract block as
the crawler consumes it.  `widenHost` is the final navigated host when the
widening sub-step ran (`none` when navigation or the widen `try` failed);
`html` is `''` and `counts` zero when the respective step failed; `cands`
are the hrefs the post-navigation `a[href]` extraction yielded (possibly
empty or stale on failure).  All failure combinations the `try`/`catch`
nesting can produce are expressible. -/
structure FetchResult where
  widenHost : Option String
  html : String
  counts : LinkCounts
  cands : List Cand

/-- Crawl configuration: the bound, the politeness toggle and fetched
robots.txt body, the sitemap seed cap (`SITEMAP_SEED_LIMIT`), and the
fetch session oracle. -/
structure CrawlCfg where
  maxPages : Nat
  respectRobots : Bool
  robotsTxt : String
  seedLimit : Nat
  session : CUrl → FetchResult

/-- The Disallow rules in force (`[]` when politeness is off — robots.txt
is only fetched under `RESPECT_ROBOTS`). -/
def CrawlCfg.disallows (cfg : CrawlCfg) : List String :=
  if cfg.respectRobots then parseRobots cfg.robotsTxt else []

/-- The crawl frontier / bookkeeping state of one `crawlSite` invocation. -/
structure CrawlSt where
  queue : List CUrl
  queued : List CUrl
  visited : List CUrl
  results : List Page
  allowed : List String
  seenBuckets : List String
  redirects : List String

/-- Frontier size plus collected-result count. -/
def sumQR (st : CrawlSt) : Nat := st.results.length + st.queue.length

/-- The fresh-bucket enqueue loop: record the bucket, stop entirely once
`results + queue` reaches `maxPages + 8`, else push. -/
def enqueueFresh (maxPages : Nat) : CrawlSt → List CUrl → CrawlSt
  | st, [] => st
  | st, n :: ns =>
      let st1 := { st with seenBuckets := setAdd st.seenBuckets (bucketKey n) }
      if maxPages + 8 ≤ sumQR st1 then st1
      else enqueueFresh maxPages
        { st1 with queue := st1.queue ++ [n], queued := setAdd st1.queued n } ns

/-- The common-bucket enqueue loop (no bucket recording). -/
def enqueueCommon (maxPages : Nat) : CrawlSt → List CUrl → CrawlSt
  | st, [] => st
  | st, n :: ns =>
      if maxPages + 8 ≤ sumQR st then st
      else enqueueCommon maxPages
        { st with queue := st.queue ++ [n], queued := setAdd st.queued n } ns

/-- Fetch one popped URL: widen the allowed hosts from the final navigated
host (recording it under `redirects`), record the Page (empty content on
failure), extract/normalize links against the widened allowed set, and
enqueue fresh buckets before common ones. -/
def crawlFetch (cfg : CrawlCfg) (st0 : CrawlSt) (current : CUrl) : CrawlSt :=
  let fr := cfg.session current
  let st1 :=
    match fr.widenHost with
    | some h => { st0 with allowed := (buildAllowedHosts h).foldl setAdd st0.allowed,
                           redirects := st0.redirects ++ [h] }
    | none => st0
  let st2 := { st1 with visited := setAdd st1.visited current,
                        results := st1.results ++ [⟨current, fr.html, fr.counts⟩] }
  let links := setOfList (fr.cands.filterMap (normalizeLink st2.allowed))
  let eligible := links.filter fun n => decide (n ∉ st2.visited) && decide (n ∉ st2.queued)
  let fresh := eligible.filter fun n => decide (bucketKey n ∉ st2.seenBuckets)
  let common := eligible.filter fun n => decide (bucketKey n ∈ st2.seenBuckets)
  enqueueCommon cfg.maxPages (enqueueFresh cfg.maxPages st2 fresh) common

/-- The BFS loop (`while (queue.length && results.length < maxPages)`),
fuel-indexed: pop, skip visited, skip robots-disallowed URLs (marking them
visited), else fetch and enqueue.  Exhausted fuel returns the state as is —
all the safety invariants proved below hold at every fuel. -/
def crawlLoop (cfg : CrawlCfg) : Nat → CrawlSt → CrawlSt
  | 0, st => st
  | fuel + 1, st =>
      match st.queue with
      | [] => st
      | current :: rest =>
          if cfg.maxPages ≤ st.results.length then st
          else
            let st1 := { st with queue := rest, queued := st.queued.erase current }
            if current ∈ st1.visited then crawlLoop cfg fuel st1
            else if cfg.respectRobots ∧ cfg.disallows ≠ [] ∧
                pathDisallowed current.pathname cfg.disallows then
              crawlLoop cfg fuel { st1 with visited := setAdd st1.visited current }
            else crawlLoop cfg fuel (crawlFetch cfg st1 current)

/-- Initial state: allowed hosts from the start host; frontier seeded with
the start URL plus the sitemap URLs (string-deduped, capped at the seed
limit, filtered through `normalizeLink`); the start URL's bucket marked
seen. -/
def crawlInit (cfg : CrawlCfg) (start : CUrl) (smCands : List Cand) : CrawlSt :=
  let allowed := buildAllowedHosts start.host
  let smSeeds := ((setOfList smCands).take cfg.seedLimit).filterMap (normalizeLink allowed)
  let seeds := setOfList (start :: smSeeds)
  { queue := seeds, queued := seeds, visited := [], results := [],
    allowed := allowed, seenBuckets := [bucketKey start], redirects := [] }

/-- A whole crawl from an already-canonicalized start URL. -/
def crawlRun (cfg : CrawlCfg) (start : CUrl) (smCands : List Cand) (fuel : Nat) : CrawlSt :=
  crawlLoop cfg fuel (crawlInit cfg start smCands)

/-- The crawler's fatal error (`crawler: startUrl must be http(s)` /
`crawler: invalid start URL` — the spec's `InvalidInputError`). -/
inductive CrawlErr where
  | invalidInput
  deriving DecidableEq, Repr

/-- The regex test `/^https?:\/\//i`. -/
def httpPrefixTest (s : String) : Bool :=
  List.isPrefixOf "http://".data (lowerStr s).data ||
  List.isPrefixOf "https://".data (lowerStr s).data

/-- `crawlSite(startUrl, maxPages, browser)`: validate the start URL
(scheme prefix, then parseability — `parse` stands for WHATWG `new URL`),
canonicalize it and run the BFS.  Sitemap candidates arrive as an oracle
input (network I/O). -/
def crawlSite (parse : String → Option RawUrl) (startUrl : String) (cfg : CrawlCfg)
    (smCands : List Cand) (fuel : Nat) : Except CrawlErr (List Page) :=
  if ¬ httpPrefixTest startUrl then .error .invalidInput
  else
    match parse startUrl with
    | none => .error .invalidInput
    | some u => .ok (crawlRun cfg (canonicalize u) smCands fuel).results

/-! ## Orchestrator (`/server/runAudit.js`) -/

/-- A page record at orchestrator level (`{ url, html, links }`; the URL is
kept as the raw string the crawler / fallback produced). -/
structure APage where
  url : String
  html : String
  links : LinkCounts
  deriving DecidableEq, Repr

/-- The per-category medians `runLighthouseMedian` resolves to (each either
a number or `null`). -/
structure LhMed where
  performance : Option ℚ
  accessibility : Option ℚ
  seo : Option ℚ
  bestPractices : Option ℚ
  deriving DecidableEq, Repr

/-- A PSI response as `fieldPerformanceProxy` consumes it: the
distribution-walking internals are collapsed to their result, the averaged
good-bucket ratio (`none` when the metrics are absent/malformed — the
function's internal `try`/`catch` and null checks). -/
structure PsiJson where
  goodRatio : Option ℚ
  deriving DecidableEq, Repr

/-- `fieldPerformanceProxy(psiJson)`: `null` on a `null` response, else the
good-bucket ratio average (or `null`). -/
def fieldPerformanceProxy (psi : Option PsiJson) : Option ℚ :=
  match psi with
  | some j => j.goodRatio
  | none => none

/-- The `lighthouse` block of the returned report. -/
structure LighthouseOut where
  performance : Option ℚ
  accessibility : Option ℚ
  seo : Option ℚ
  bestPractices : Option ℚ
  fieldProxy : Option ℚ
  strategy : String
  deriving DecidableEq, Repr

/-- The assembled `AuditReport` (the stable shape the UI expects). -/
structure AuditReport where
  url : String
  siteType : String
  structuredSignals : List (String × JsVal)
  scores : List (String × SectionOut)
  lighthouse : LighthouseOut
  screenshotBase64 : Option String
  deriving DecidableEq, Repr

/-- Errors that escape `runAudit`: the malformed-URL guard
(`InvalidInputError`), and a failure of the initial `puppeteer.launch`
(step 0, session acquisition — the only statement of the main `try` block
not wrapped in an inner stage `try`/`catch`). -/
inductive AuditErr where
  | invalidInput
  | sessionLaunch
  deriving DecidableEq, Repr

/-- Stage oracles of one `runAudit` call.  Each `Except` value is the
outcome of one externally-effectful stage exactly as the orchestrator's
inner `try`/`catch` blocks consume it; `rubric` is the resolved rubric
module the scoring engine reads. -/
structure AuditDeps where
  launchFails : Bool
  crawl : Except Unit (List APage)
  fallbackHtml : Except Unit String
  screenshot : Except Unit String
  lighthouse : Except Unit LhMed
  psi : Except Unit (Option PsiJson)
  signalsFn : APage → List APage → Except Unit (List (String × JsVal))
  scoreFails : Bool
  rubric : List (String × RSection)
  rubricThresholds : Option (List Threshold)
  rubricWeights : Option (List (String × List (String × JsVal)))
  psiBlend : Bool
  formFactorDesktop : Bool

/-- A `number | null` value as the scoring engine receives it. -/
def optToJs (q : Option ℚ) : JsVal :=
  match q with
  | some x => .num (.fin x)
  | none => .null

/-- Stage 1–2: crawl result with the homepage fallback (`pages` is `[]`
when the crawler threw; an empty corpus falls back to a direct homepage
fetch; a failed fallback leaves the corpus empty). -/
def auditPages (targetUrl : String) (d : AuditDeps) : List APage :=
  let pages := match d.crawl with | .ok ps => ps | .error _ => []
  if pages.isEmpty then
    match d.fallbackHtml with
    | .ok html => [⟨targetUrl, html, ⟨0, 0, 0⟩⟩]
    | .error _ => []
  else pages

/-- Stage 4: the PSI fetch result (`null` on failure). -/
def auditPsi (d : AuditDeps) : Option PsiJson :=
  match d.psi with | .ok v => v | .error _ => none

/-- Stage 5: the structured signals (`{}` when the producer threw);
`home` is `pages[0] || { url: targetUrl, html: '' }`. -/
def auditSignals (targetUrl : String) (d : AuditDeps) : List (String × JsVal) :=
  let pages := auditPages targetUrl d
  let home := pages.headD ⟨targetUrl, "", ⟨0, 0, 0⟩⟩
  match d.signalsFn home pages with | .ok s => s | .error _ => []

/-- The lab/field performance blend (70% lab / 30% field when `PSI_BLEND`
is on and both values exist). -/
def auditPerfForScoring (d : AuditDeps) : Option ℚ :=
  let perf0 := d.lighthouse.toOption.bind fun m => m.performance
  if d.psiBlend then
    match auditPsi d, perf0, fieldPerformanceProxy (auditPsi d) with
    | some _, some p, some f => some ((7/10) * p + (3/10) * f)
    | _, _, _ => perf0
  else perf0

/-- The Lighthouse categories handed to the scoring engine. -/
def auditLhForScoring (d : AuditDeps) : LHCats :=
  { performance := optToJs (auditPerfForScoring d),
    accessibility := optToJs (d.lighthouse.toOption.bind fun m => m.accessibility),
    bestPractices := optToJs (d.lighthouse.toOption.bind fun m => m.bestPractices),
    seo := optToJs (d.lighthouse.toOption.bind fun m => m.seo) }

/-- Stage 6: the scores mapping (`{}` when the scoring stage threw). -/
def auditScores (targetUrl siteType : String) (d : AuditDeps) : List (String × SectionOut) :=
  if d.scoreFails then []
  else
    scoringEngine d.rubric d.rubricThresholds d.rubricWeights (auditSignals targetUrl d)
      siteType (some (auditLhForScoring d))

/-- `runAudit(targetUrl, siteType)`: validate the URL prefix, acquire the
browser, then run crawl → homepage fallback → screenshot → Lighthouse
median → PSI → signals → blend → scoring, each stage isolated by its own
`try`/`catch` with an explicit degraded default, and assemble the report. -/
def runAudit (targetUrl siteType : String) (d : AuditDeps) : Except AuditErr AuditReport :=
  if ¬ httpPrefixTest targetUrl then .error .invalidInput
  else if d.launchFails then .error .sessionLaunch
  else
    .ok
      { url := targetUrl, siteType := siteType,
        structuredSignals := auditSignals targetUrl d,
        scores := auditScores targetUrl siteType d,
        lighthouse :=
          { performance := d.lighthouse.toOption.bind fun m => m.performance,
            accessibility := d.lighthouse.toOption.bind fun m => m.accessibility,
            seo := d.lighthouse.toOption.bind fun m => m.seo,
            bestPractices := d.lighthouse.toOption.bind fun m => m.bestPractices,
            fieldProxy := fieldPerformanceProxy (auditPsi d),
            strategy := if d.formFactorDesktop then "desktop" else "mobile" },
        screenshotBase64 := d.screenshot.toOption }

/-- Modelled from the spec: a "well-formed absolute http(s) URL" — an
`http://` or `https://` scheme followed by a nonempty host.  (WHATWG URL
parsing itself is Node library code outside the repository; this captures
the minimal conditions any absolute http(s) URL must meet — in particular
`new URL` rejects an empty host for the special http schemes, so
`"http://"` alone is not well-formed.) -/
def wellFormedHttpUrl (s : String) : Bool :=
  httpPrefixTest s &&
  (let rest :=
     if List.isPrefixOf "https://".data (lowerStr s).data then s.data.drop 8
     else s.data.drop 7
   let hostPart := rest.takeWhile fun c => c ≠ '/' && c ≠ '?' && c ≠ '#'
   decide (hostPart ≠ []))

/-! ## Concrete fixtures (used by witness and counterexample theorems) -/

/-- Zero link counts. -/
def zeroCounts : LinkCounts := ⟨0, 0, 0⟩

/-- A session oracle whose navigations all fail (empty page recorded). -/
def nullSession : CUrl → FetchResult := fun _ => ⟨none, "", zeroCounts, []⟩

/-- A polite crawl configuration whose robots.txt disallows `/private`. -/
def cfgR : CrawlCfg :=
  { maxPages := 10, respectRobots := true,
    robotsTxt := "User-agent: *\nDisallow: /private", seedLimit := 5,
    session := nullSession }

/-- A start URL on `x.com`. -/
def startR : CUrl := ⟨true, "x.com", "/"⟩

/-- A crawl state about to pop a `/private` URL. -/
def stR : CrawlSt :=
  { queue := [⟨true, "x.com", "/private/a"⟩], queued := [⟨true, "x.com", "/private/a"⟩],
    visited := [], results := [], allowed := ["x.com", "www.x.com"],
    seenBuckets := [""], redirects := [] }

/-- An impolite configuration with `maxPages = 10` and the sitemap seed cap
at its legal maximum `SITEMAP_SEED_LIMIT = 20`. -/
def cfgX : CrawlCfg :=
  { maxPages := 10, respectRobots := false, robotsTxt := "", seedLimit := 20,
    session := nullSession }

/-- Twenty distinct same-host sitemap candidates. -/
def smX : List Cand :=
  (List.range 20).map fun i => Cand.link ⟨true, "x.com", "/p" ++ toString i, "", ""⟩ false

/-- Orchestrator oracles where every isolated stage fails (and the scoring
stage throws), while session acquisition succeeds. -/
def failDeps : AuditDeps :=
  { launchFails := false, crawl := .error (), fallbackHtml := .error (),
    screenshot := .error (), lighthouse := .error (), psi := .error (),
    signalsFn := fun _ _ => .error (), scoreFails := true, rubric := [],
    rubricThresholds := none, rubricWeights := none, psiBlend := false,
    formFactorDesktop := false }

/-- A one-rule section whose rule carries explicit weight `0`. -/
def secW : RSection :=
  { thresholds := none,
    signals := some [{ key := "a", rtype := some "boolean", weight := .num (.fin 0),
                       idealRange := none, name := none, description := none }],
    weightsBySiteType := none }

/-! ## Invariant predicates of the crawl loop -/

/-- The safety invariant the BFS loop maintains: result URLs are pairwise
distinct and visited; result and frontier hosts are in the allowed set; and
every allowed host stems either from the start host's derivation or from
the derivation of an observed (recorded) navigation final host. -/
def CrawlInv (start : CUrl) (st : CrawlSt) : Prop :=
  (st.results.map Page.url).Nodup ∧
  (∀ p ∈ st.results, p.url ∈ st.visited) ∧
  (∀ p ∈ st.results, lowerStr p.url.host ∈ st.allowed) ∧
  (∀ u ∈ st.queue, lowerStr u.host ∈ st.allowed) ∧
  (∀ h ∈ st.allowed, h ∈ buildAllowedHosts start.host ∨
     ∃ r ∈ st.redirects, h ∈ buildAllowedHosts r)

/-! # Theorems -/

/-! ### Bounds helpers -/

theorem clamp01_nonneg (v : JsVal) : 0 ≤ clamp01 v := by
  cases v with
  | num n => cases n <;> simp [clamp01]
  | jsUndefined => simp [clamp01]
  | null => simp [clamp01]
  | bool b => simp [clamp01]
  | str s => simp [clamp01]

theorem clamp01_le_one (v : JsVal) : clamp01 v ≤ 1 := by
  cases v with
  | num n =>
      cases n with
      | fin q =>
          simp only [clamp01]
          exact max_le (by norm_num) (min_le_left _ _)
      | nan => simp [clamp01]
      | inf => simp [clamp01]
      | ninf => simp [clamp01]
  | jsUndefined => simp [clamp01]
  | null => simp [clamp01]
  | bool b => simp [clamp01]
  | str s => simp [clamp01]

theorem clamp01N_nonneg (n : JNum) : 0 ≤ clamp01N n := clamp01_nonneg _

theorem clamp01N_le_one (n : JNum) : clamp01N n ≤ 1 := clamp01_le_one _

theorem scoreCountRange_bounds (raw : JsVal) (ir : Option (JNum × JNum)) :
    0 ≤ scoreCountRange raw ir ∧ scoreCountRange raw ir ≤ 1 := by
  unfold scoreCountRange
  split
  · norm_num
  · split
    · exact ⟨clamp01_nonneg _, clamp01_le_one _⟩
    · split
      · split_ifs <;>
          first
            | exact ⟨clamp01N_nonneg _, clamp01N_le_one _⟩
            | norm_num
      · norm_num

theorem scoreByKind_bounds (t : String) (v : JsVal) (ir : Option (JNum × JNum)) :
    0 ≤ scoreByKind t v ir ∧ scoreByKind t v ir ≤ 1 := by
  unfold scoreByKind
  split_ifs with h1 h2 h3 h4 h5
  · split <;> first | (split <;> norm_num) | norm_num
  · exact ⟨clamp01_nonneg v, clamp01_le_one v⟩
  · constructor
    · have := clamp01_le_one v
      linarith
    · have := clamp01_nonneg v
      linarith
  · exact scoreCountRange_bounds v ir
  · exact ⟨clamp01_nonneg v, clamp01_le_one v⟩
  · exact ⟨clamp01_nonneg v, clamp01_le_one v⟩

/-- **C2.** For every rule kind (`boolean`, `normalized`,
`normalized_inverse`, `scaled_match`, `count_range`, `numeric_inverse`,
`enum_quality`, `lighthouse_score`, and any unrecognized kind) and every
raw value — missing, `null`, `NaN`, non-numeric, out-of-range — the score
produced by the engine's per-rule evaluation lies in `[0, 1]`. -/
theorem scoreRule_bounded (raw : JsVal) (rule : Rule) (lh : Option LHCats) :
    0 ≤ scoreRule raw rule lh ∧ scoreRule raw rule lh ≤ 1 :=
  scoreByKind_bounds (effType rule) (lhSubstitute raw rule (effType rule) lh) rule.idealRange

/-! ### Finite-number computation lemmas -/

@[simp] theorem jle_fin_fin (a b : ℚ) : (JNum.fin a).jle (.fin b) = decide (a ≤ b) := rfl

@[simp] theorem jge_fin_fin (a b : ℚ) : (JNum.fin a).jge (.fin b) = decide (b ≤ a) := rfl

@[simp] theorem jlt_fin_fin (a b : ℚ) : (JNum.fin a).jlt (.fin b) = decide (a < b) := rfl

@[simp] theorem jsub_fin_fin (a b : ℚ) : (JNum.fin a).jsub (.fin b) = .fin (a - b) := rfl

@[simp] theorem jadd_fin_fin (a b : ℚ) : (JNum.fin a).jadd (.fin b) = .fin (a + b) := rfl

@[simp] theorem jmul_fin_fin (a b : ℚ) : (JNum.fin a).jmul (.fin b) = .fin (a * b) := rfl

theorem jdiv_fin_fin (a b : ℚ) (hb : b ≠ 0) :
    (JNum.fin a).jdiv (.fin b) = .fin (a / b) := by
  simp [JNum.jdiv, hb]

@[simp] theorem truthy_fin (q : ℚ) : (JNum.fin q).truthy = decide (q ≠ 0) := rfl

theorem clamp01N_fin (q : ℚ) : clamp01N (.fin q) = max 0 (min 1 q) := rfl

/-- Closed form of `scoreCountRange` on finite numeric inputs. -/
theorem scoreCountRange_fin (mn mx r : ℚ) :
    scoreCountRange (.num (.fin r)) (some (.fin mn, .fin mx)) =
      if mx ≤ mn then (if mn ≤ r then 1 else 0)
      else if mn ≤ r ∧ r ≤ mx then 1
      else max 0 (min 1 (1 - (if r < mn then mn - r else r - mx) / (mx - mn))) := by
  by_cases h1 : mx ≤ mn
  · simp [scoreCountRange, JsVal.isNullish, h1]
  · have hw : mx - mn ≠ 0 := by
      intro h
      exact h1 (by linarith [sub_eq_zero.mp h])
    by_cases h2 : mn ≤ r ∧ r ≤ mx
    · simp [scoreCountRange, JsVal.isNullish, h1, h2.1, h2.2]
    · have hins : ((decide (mn ≤ r)) && (decide (r ≤ mx))) = false := by
        rcases not_and_or.mp h2 with h | h <;> simp [h]
      by_cases h3 : r < mn
      · simp only [scoreCountRange, JsVal.isNullish, Bool.false_eq_true, if_false,
          jge_fin_fin, jle_fin_fin, jlt_fin_fin, jsub_fin_fin, hins,
          decide_eq_true_eq, h1, if_false, h3, if_true, if_neg h1, if_neg h2]
        rw [jdiv_fin_fin _ _ hw]
        simp [clamp01N_fin, h3]
      · simp only [scoreCountRange, JsVal.isNullish, Bool.false_eq_true, if_false,
          jge_fin_fin, jle_fin_fin, jlt_fin_fin, jsub_fin_fin, hins,
          decide_eq_true_eq, h1, if_false, h3, if_neg h1, if_neg h2]
        rw [jdiv_fin_fin _ _ hw]
        simp [clamp01N_fin, h3]

/-! ### `count_range` regime lemmas -/

theorem sCR_degenerate (mn mx r : ℚ) (h : mx ≤ mn) :
    scoreCountRange (.num (.fin r)) (some (.fin mn, .fin mx)) =
      if mn ≤ r then 1 else 0 := by
  rw [scoreCountRange_fin, if_pos h]

theorem sCR_inside (mn mx r : ℚ) (h : ¬ mx ≤ mn) (h1 : mn ≤ r) (h2 : r ≤ mx) :
    scoreCountRange (.num (.fin r)) (some (.fin mn, .fin mx)) = 1 := by
  rw [scoreCountRange_fin, if_neg h, if_pos ⟨h1, h2⟩]

theorem sCR_left (mn mx r : ℚ) (h : mn < mx) (hr : r < mn) :
    scoreCountRange (.num (.fin r)) (some (.fin mn, .fin mx)) =
      max 0 (1 - (mn - r) / (mx - mn)) := by
  have hw : (0 : ℚ) < mx - mn := by linarith
  rw [scoreCountRange_fin, if_neg (not_le.mpr h),
    if_neg (fun hc => absurd hc.1 (not_le.mpr hr)), if_pos hr,
    min_eq_right (by
      have : 0 ≤ (mn - r) / (mx - mn) := div_nonneg (by linarith) hw.le
      linarith)]

theorem sCR_right (mn mx r : ℚ) (h : mn < mx) (hr : mx < r) :
    scoreCountRange (.num (.fin r)) (some (.fin mn, .fin mx)) =
      max 0 (1 - (r - mx) / (mx - mn)) := by
  have hw : (0 : ℚ) < mx - mn := by linarith
  rw [scoreCountRange_fin, if_neg (not_le.mpr h),
    if_neg (fun hc => absurd hc.2 (not_le.mpr hr)),
    if_neg (not_lt.mpr (by linarith)),
    min_eq_right (by
      have : 0 ≤ (r - mx) / (mx - mn) := div_nonneg (by linarith) hw.le
      linarith)]

/-- **C4.** For a `count_range` rule with ideal closed interval
`[min, max]` and numeric raw value: inside the interval the score is `1`;
for a degenerate interval (`min ≥ max`) the score is `1` iff `raw ≥ min`;
outside a proper interval the score decays linearly from `1` to `0` as the
distance from the nearest bound grows to the interval width (floored at
`0`), so `min − width` and `max + width` score `0`, and the score is
monotone on either side of the interval. -/
theorem scoreCountRange_spec (mn mx : ℚ) :
    (mx ≤ mn → ∀ r : ℚ,
       scoreCountRange (.num (.fin r)) (some (.fin mn, .fin mx)) =
         if mn ≤ r then 1 else 0) ∧
    (mn < mx →
       (∀ r : ℚ, mn ≤ r → r ≤ mx →
          scoreCountRange (.num (.fin r)) (some (.fin mn, .fin mx)) = 1) ∧
       (∀ r : ℚ, r < mn →
          scoreCountRange (.num (.fin r)) (some (.fin mn, .fin mx)) =
            max 0 (1 - (mn - r) / (mx - mn))) ∧
       (∀ r : ℚ, mx < r →
          scoreCountRange (.num (.fin r)) (some (.fin mn, .fin mx)) =
            max 0 (1 - (r - mx) / (mx - mn))) ∧
       scoreCountRange (.num (.fin (mn - (mx - mn)))) (some (.fin mn, .fin mx)) = 0 ∧
       scoreCountRange (.num (.fin (mx + (mx - mn)))) (some (.fin mn, .fin mx)) = 0 ∧
       (∀ a b : ℚ, a ≤ b → b ≤ mn →
          scoreCountRange (.num (.fin a)) (some (.fin mn, .fin mx)) ≤
            scoreCountRange (.num (.fin b)) (some (.fin mn, .fin mx))) ∧
       (∀ a b : ℚ, mx ≤ a → a ≤ b →
          scoreCountRange (.num (.fin b)) (some (.fin mn, .fin mx)) ≤
            scoreCountRange (.num (.fin a)) (some (.fin mn, .fin mx)))) := by
  constructor
  · intro h r
    exact sCR_degenerate mn mx r h
  · intro h
    have hw : (0 : ℚ) < mx - mn := by linarith
    refine ⟨fun r h1 h2 => sCR_inside mn mx r (not_le.mpr h) h1 h2,
      fun r hr => sCR_left mn mx r h hr,
      fun r hr => sCR_right mn mx r h hr, ?_, ?_, ?_, ?_⟩
    · rw [sCR_left mn mx _ h (by linarith),
        show mn - (mn - (mx - mn)) = mx - mn by ring, div_self hw.ne']
      simp
    · rw [sCR_right mn mx _ h (by linarith),
        show mx + (mx - mn) - mx = mx - mn by ring, div_self hw.ne']
      simp
    · intro a b hab hbmn
      by_cases hb : b < mn
      · have ha : a < mn := lt_of_le_of_lt hab hb
        rw [sCR_left mn mx a h ha, sCR_left mn mx b h hb]
        apply max_le_max le_rfl
        have hdiv : (mn - b) / (mx - mn) ≤ (mn - a) / (mx - mn) :=
          (div_le_div_iff_of_pos_right hw).mpr (by linarith)
        linarith
      · have hb2 : b = mn := le_antisymm hbmn (not_lt.mp hb)
        rw [hb2, sCR_inside mn mx mn (not_le.mpr h) le_rfl h.le]
        exact (scoreCountRange_bounds _ _).2
    · intro a b hmxa hab
      by_cases ha : mx < a
      · have hb : mx < b := lt_of_lt_of_le ha hab
        rw [sCR_right mn mx a h ha, sCR_right mn mx b h hb]
        apply max_le_max le_rfl
        have hdiv : (a - mx) / (mx - mn) ≤ (b - mx) / (mx - mn) :=
          (div_le_div_iff_of_pos_right hw).mpr (by linarith)
        linarith
      · have ha2 : a = mx := le_antisymm (not_lt.mp ha) hmxa
        rw [ha2, sCR_inside mn mx mx (not_le.mpr h) h.le le_rfl]
        exact (scoreCountRange_bounds _ _).2

/-- Witness for C4 at the base rubric's `sectionCount` interval `[4, 12]`. -/
theorem scoreCountRange_spec_witness :
    scoreCountRange (.num (.fin 5)) (some (.fin 4, .fin 12)) = 1 ∧
    scoreCountRange (.num (.fin 2)) (some (.fin 4, .fin 12)) =
      max 0 (1 - (4 - 2) / (12 - 4)) :=
  ⟨((scoreCountRange_spec 4 12).2 (by norm_num)).1 5 (by norm_num) (by norm_num),
   ((scoreCountRange_spec 4 12).2 (by norm_num)).2.1 2 (by norm_num)⟩

/-- **C8.** For every rule evaluated by the scoring engine, the effective
weight is the rule's own explicit numeric weight when present, else the
category (siteType) override for that rule key when present, else `1`; an
explicit rule weight takes precedence over a category override even when
both are given.  The last conjunct ties `resolveWeight` to the engine's
accumulation step. -/
theorem resolveWeight_precedence :
    (∀ (n : JNum) (ov : JsVal), resolveWeight (.num n) ov = n) ∧
    (∀ rw : JsVal, rw.isNumber = false → ∀ m : JNum, resolveWeight rw (.num m) = m) ∧
    (∀ rw ov : JsVal, rw.isNumber = false → ov.isNumber = false →
       resolveWeight rw ov = .fin 1) ∧
    (∀ (sig tw : List (String × JsVal)) (lh : Option LHCats)
       (acc : JNum × JNum × List SigDetail) (rule : Rule),
       (ruleStep sig tw lh acc rule).2.1 =
         acc.2.1.jadd (resolveWeight rule.weight (sigGet tw rule.key))) := by
  refine ⟨fun n ov => rfl, ?_, ?_, fun sig tw lh acc rule => rfl⟩
  · intro rw h m
    cases rw <;> simp_all [resolveWeight, JsVal.isNumber]
  · intro rw ov h1 h2
    cases rw <;> cases ov <;> simp_all [resolveWeight, JsVal.isNumber]

/-- Witness for C8: a non-numeric explicit weight falls back to the
category override. -/
theorem resolveWeight_precedence_witness :
    resolveWeight (JsVal.str "x") (.num (.fin 5)) = .fin 5 ∧
    resolveWeight (.num (.fin 2)) (.num (.fin 5)) = .fin 2 :=
  ⟨resolveWeight_precedence.2.1 (JsVal.str "x") rfl (.fin 5),
   resolveWeight_precedence.1 (.fin 2) (.num (.fin 5))⟩

/-! ### Section aggregation lemmas -/

theorem foldl_ruleStep_isFin (sig tw : List (String × JsVal)) (lh : Option LHCats) :
    ∀ (rules : List Rule),
      (∀ r ∈ rules, (resolveWeight r.weight (sigGet tw r.key)).isFin = true) →
      ∀ (T W : ℚ) (dets : List SigDetail),
        ∃ (T2 W2 : ℚ) (dets2 : List SigDetail),
          rules.foldl (ruleStep sig tw lh) (.fin T, .fin W, dets) = (.fin T2, .fin W2, dets2) := by
  intro rules
  induction rules with
  | nil => exact fun _ T W dets => ⟨T, W, dets, rfl⟩
  | cons r rs ih =>
    intro hf T W dets
    obtain ⟨w, hw⟩ : ∃ w, resolveWeight r.weight (sigGet tw r.key) = .fin w := by
      have := hf r (List.mem_cons_self _ _)
      cases hres : resolveWeight r.weight (sigGet tw r.key) <;>
        simp_all [JNum.isFin]
    have hstep : ruleStep sig tw lh (.fin T, .fin W, dets) r =
        (.fin (T + scoreRule (sigGet sig r.key) r lh * w), .fin (W + w),
          dets ++ [{ id := r.key, label := orElseStr r.name r.key,
                     value := sigGet sig r.key,
                     score := scoreRule (sigGet sig r.key) r lh,
                     weight := .fin w,
                     weightedScore := .fin (scoreRule (sigGet sig r.key) r lh * w),
                     stype := effType r,
                     description := orElseStr r.description (orElseStr r.name "") }]) := by
      simp [ruleStep, hw]
    rw [List.foldl_cons, hstep]
    exact ih (fun x hx => hf x (List.mem_cons_of_mem _ hx)) _ _ _

theorem foldl_ruleStep_zero (sig tw : List (String × JsVal)) (lh : Option LHCats) :
    ∀ (rules : List Rule),
      (∀ r ∈ rules, resolveWeight r.weight (sigGet tw r.key) = .fin 0) →
      ∀ (T W : ℚ) (dets : List SigDetail),
        ∃ dets2 : List SigDetail,
          rules.foldl (ruleStep sig tw lh) (.fin T, .fin W, dets) = (.fin T, .fin W, dets2) := by
  intro rules
  induction rules with
  | nil => exact fun _ T W dets => ⟨dets, rfl⟩
  | cons r rs ih =>
    intro hf T W dets
    have hw := hf r (List.mem_cons_self _ _)
    have hstep : ruleStep sig tw lh (.fin T, .fin W, dets) r =
        (.fin T, .fin W,
          dets ++ [{ id := r.key, label := orElseStr r.name r.key,
                     value := sigGet sig r.key,
                     score := scoreRule (sigGet sig r.key) r lh,
                     weight := .fin 0,
                     weightedScore := .fin (scoreRule (sigGet sig r.key) r lh * 0),
                     stype := effType r,
                     description := orElseStr r.description (orElseStr r.name "") }]) := by
      simp [ruleStep, hw]
    rw [List.foldl_cons, hstep]
    exact ih (fun x hx => hf x (List.mem_cons_of_mem _ hx)) _ _ _

theorem getGrade_cons_of_neg (s : ℚ) (t0 : Threshold) (rest : List Threshold)
    (h0 : ¬ t0.minScore ≤ s) (hne : rest ≠ []) :
    getGrade (.fin s) (t0 :: rest) = getGrade (.fin s) rest := by
  simp [getGrade, List.find?_cons, List.isEmpty_eq_true, hne, h0]

/-- The descending-scan reading of `getGrade` on a sorted threshold list. -/
theorem getGrade_descending (s : ℚ) (th : List Threshold) (hne : th ≠ [])
    (hsorted : th.Pairwise (fun a b => b.minScore < a.minScore)) :
    (∃ t ∈ th, getGrade (.fin s) th = t.grade ∧ t.minScore ≤ s ∧
       ∀ u ∈ th, u.minScore ≤ s → u.minScore ≤ t.minScore) ∨
    (getGrade (.fin s) th = "F" ∧ ∀ u ∈ th, s < u.minScore) := by
  induction th with
  | nil => exact absurd rfl hne
  | cons t0 rest ih =>
    by_cases h0 : t0.minScore ≤ s
    · left
      refine ⟨t0, List.mem_cons_self _ _, ?_, h0, ?_⟩
      · simp [getGrade, List.find?_cons, h0]
      · intro u hu _
        rcases List.mem_cons.mp hu with h | h
        · exact h ▸ le_rfl
        · exact le_of_lt ((List.pairwise_cons.mp hsorted).1 u h)
    · cases rest with
      | nil =>
        right
        constructor
        · simp [getGrade, List.find?_cons, h0]
        · intro u hu
          rcases List.mem_cons.mp hu with h | h
          · exact h ▸ not_le.mp h0
          · simp at h
      | cons t1 rest2 =>
        have hrw := getGrade_cons_of_neg s t0 (t1 :: rest2) h0 (by simp)
        rcases ih (by simp) (List.pairwise_cons.mp hsorted).2 with
          ⟨t, ht, hg, hts, hmax⟩ | ⟨hg, hall⟩
        · left
          refine ⟨t, List.mem_cons_of_mem _ ht, hrw ▸ hg, hts, ?_⟩
          intro u hu hus
          rcases List.mem_cons.mp hu with h | h
          · exact absurd (h ▸ hus) h0
          · exact hmax u h hus
        · right
          refine ⟨hrw ▸ hg, ?_⟩
          intro u hu
          rcases List.mem_cons.mp hu with h | h
          · exact h ▸ not_le.mp h0
          · exact hall u h

theorem getGrade_zero_last :
    ∀ (th : List Threshold) (last : Threshold),
      th.getLast? = some last → last.minScore = 0 →
      th.Pairwise (fun a b => b.minScore < a.minScore) →
      getGrade (.fin 0) th = last.grade := by
  intro th
  induction th with
  | nil => intro last hlast; simp at hlast
  | cons t0 rest ih =>
    intro last hlast h0 hsorted
    cases rest with
    | nil =>
      have ht : t0 = last := by simpa using hlast
      subst ht
      simp [getGrade, List.find?_cons, h0]
    | cons t1 rest2 =>
      have hlast2 : (t1 :: rest2).getLast? = some last := by
        rw [← hlast]
        exact (List.getLast?_cons_cons).symm
      have hmem : last ∈ t1 :: rest2 := by
        obtain ⟨hne2, heq⟩ := List.mem_getLast?_eq_getLast (Option.mem_def.mpr hlast2)
        exact heq ▸ List.getLast_mem hne2
      have hpos : 0 < t0.minScore := by
        have hlt := (List.pairwise_cons.mp hsorted).1 last hmem
        rw [h0] at hlt
        exact hlt
      rw [getGrade_cons_of_neg 0 t0 (t1 :: rest2) (by linarith) (by simp)]
      exact ih last hlast2 h0 (List.pairwise_cons.mp hsorted).2

/-- **C3.** For every section evaluated by the engine, `weightedScore`
equals `totalWeighted / totalWeight` (and `0` when `totalWeight` is `0`);
the grade is the first threshold entry, scanned in descending `minScore`
order, whose `minScore` is at most the weighted score; a section whose
rules all resolve to weight `0` yields weighted score `0` and the lowest
configured grade. -/
theorem sectionEval_grade_spec :
    (∀ (sec : RSection) (rTh : Option (List Threshold))
       (rW : Option (List (String × List (String × JsVal))))
       (sig : List (String × JsVal)) (siteType : String) (lh : Option LHCats),
       (∀ r ∈ sec.signals.getD [],
          (resolveWeight r.weight (sigGet (resolvedTypeWeights sec rW siteType) r.key)).isFin
            = true) →
       ∃ T W : ℚ,
         (sectionEval sec rTh rW sig siteType lh).total = .fin T ∧
         (sectionEval sec rTh rW sig siteType lh).max = .fin W ∧
         (sectionEval sec rTh rW sig siteType lh).weightedScore =
           .fin (if W = 0 then 0 else T / W)) ∧
    (∀ (s : ℚ) (th : List Threshold), th ≠ [] →
       th.Pairwise (fun a b => b.minScore < a.minScore) →
       ((∃ t ∈ th, getGrade (.fin s) th = t.grade ∧ t.minScore ≤ s ∧
           ∀ u ∈ th, u.minScore ≤ s → u.minScore ≤ t.minScore) ∨
        (getGrade (.fin s) th = "F" ∧ ∀ u ∈ th, s < u.minScore))) ∧
    (∀ (sec : RSection) (rTh : Option (List Threshold))
       (rW : Option (List (String × List (String × JsVal))))
       (sig : List (String × JsVal)) (siteType : String) (lh : Option LHCats)
       (last : Threshold),
       (∀ r ∈ sec.signals.getD [],
          resolveWeight r.weight (sigGet (resolvedTypeWeights sec rW siteType) r.key) = .fin 0) →
       (resolvedThresholds sec rTh).getLast? = some last →
       (resolvedThresholds sec rTh).Pairwise (fun a b => b.minScore < a.minScore) →
       last.minScore = 0 →
       (sectionEval sec rTh rW sig siteType lh).weightedScore = .fin 0 ∧
       (sectionEval sec rTh rW sig siteType lh).grade = last.grade) := by
  refine ⟨?_, fun s th hne hs => getGrade_descending s th hne hs, ?_⟩
  · intro sec rTh rW sig siteType lh hf
    obtain ⟨T2, W2, dets2, hfold⟩ :=
      foldl_ruleStep_isFin sig (resolvedTypeWeights sec rW siteType) lh
        (sec.signals.getD []) hf 0 0 []
    refine ⟨T2, W2, ?_, ?_, ?_⟩
    all_goals simp only [sectionEval, hfold]
    all_goals by_cases hW : W2 = 0
    all_goals simp [hW, jdiv_fin_fin, JNum.truthy]
  · intro sec rTh rW sig siteType lh last hf hlast hsorted h0
    obtain ⟨dets2, hfold⟩ :=
      foldl_ruleStep_zero sig (resolvedTypeWeights sec rW siteType) lh
        (sec.signals.getD []) hf 0 0 []
    constructor
    · simp [sectionEval, hfold, JNum.truthy]
    · have hgrade : getGrade (.fin 0) (resolvedThresholds sec rTh) = last.grade :=
        getGrade_zero_last _ last hlast h0 hsorted
      simp [sectionEval, hfold, JNum.truthy, hgrade]

/-- Witness for C3 part (c) on a one-rule weight-0 section with the default
thresholds. -/
theorem sectionEval_grade_spec_witness :
    (sectionEval secW none none [] "base" none).weightedScore = .fin 0 ∧
    (sectionEval secW none none [] "base" none).grade = "F" :=
  sectionEval_grade_spec.2.2 secW none none [] "base" none ⟨"F", 0⟩
    (by intro r hr; simp [secW] at hr; subst hr; rfl)
    (by rfl)
    (by norm_num [resolvedThresholds, secW, DEFAULT_THRESHOLDS, List.pairwise_cons])
    rfl

/-! ### Median lemmas -/

theorem finiteVals_cons_none (v : JsVal) (l : List JsVal) (h : finPart v = none) :
    finiteVals (v :: l) = finiteVals l := by
  simp [finiteVals, List.filterMap_cons, h]

theorem insertionSort_eq_of_perm (a b : List ℚ) (h : a.Perm b) :
    List.insertionSort (fun x y => x ≤ y) a = List.insertionSort (fun x y => x ≤ y) b :=
  List.eq_of_perm_of_sorted
    ((List.perm_insertionSort _ a).trans (h.trans (List.perm_insertionSort _ b).symm))
    (List.sorted_insertionSort _ a) (List.sorted_insertionSort _ b)

/-- **C7.** The median helper discards entries that are not finite numbers,
sorts the rest ascending, and returns the middle value (odd count), the
mean of the two middle values (even count), or `null` when nothing
remains; in particular `median([]) = null`, `median([0.5]) = 0.5`,
`median([0.2, 0.8]) = 0.5`, `median([0.1, 0.5, 0.9]) = 0.5`. -/
theorem median_spec :
    median [] = none ∧
    median [.num (.fin (1/2))] = some (1/2) ∧
    median [.num (.fin (2/10)), .num (.fin (8/10))] = some (1/2) ∧
    median [.num (.fin (1/10)), .num (.fin (5/10)), .num (.fin (9/10))] = some (1/2) ∧
    (∀ (v : JsVal) (l : List JsVal), finPart v = none → median (v :: l) = median l) ∧
    (∀ l : List JsVal, median l = none ↔ finiteVals l = []) ∧
    (∀ l1 l2 : List JsVal, (finiteVals l1).Perm (finiteVals l2) → median l1 = median l2) ∧
    (∀ (l : List JsVal) (s : List ℚ),
       s = List.insertionSort (fun a b => a ≤ b) (finiteVals l) → s ≠ [] →
       median l = some (if s.length % 2 = 1 then s.getD (s.length / 2) 0
                        else (s.getD (s.length / 2 - 1) 0 + s.getD (s.length / 2) 0) / 2)) := by
  refine ⟨by with_unfolding_all rfl, by with_unfolding_all rfl, by with_unfolding_all rfl,
    by with_unfolding_all rfl, ?_, ?_, ?_, ?_⟩
  · intro v l h
    unfold median
    rw [finiteVals_cons_none v l h]
  · intro l
    have hlen := (List.perm_insertionSort (fun a b : ℚ => a ≤ b) (finiteVals l)).length_eq
    unfold median
    by_cases hs : (List.insertionSort (fun a b : ℚ => a ≤ b) (finiteVals l)).isEmpty
    · have hnil : finiteVals l = [] := by
        have := List.isEmpty_eq_true.mp hs
        rw [this] at hlen
        exact List.eq_nil_of_length_eq_zero hlen.symm
      simp [hs, hnil]
    · have hnnil : finiteVals l ≠ [] := by
        intro hc
        apply hs
        have hz : (List.insertionSort (fun a b : ℚ => a ≤ b) (finiteVals l)).length = 0 := by
          rw [hlen, hc]
          rfl
        exact List.isEmpty_eq_true.mpr (List.eq_nil_of_length_eq_zero hz)
      simp only [hs, Bool.false_eq_true, if_false, hnnil, iff_false]
      split <;> simp
  · intro l1 l2 h
    unfold median
    rw [insertionSort_eq_of_perm _ _ h]
  · intro l s hs hne
    unfold median
    rw [← hs]
    simp only [List.isEmpty_eq_true, hne, if_false]
    split <;> rfl

/-- Witness for C7: a `null` entry is discarded before the median is
taken. -/
theorem median_spec_witness :
    median [JsVal.null, .num (.fin (1/2))] = some (1/2) :=
  (median_spec.2.2.2.2.1 JsVal.null [.num (.fin (1/2))] rfl).trans median_spec.2.1

/-! ### Orchestrator theorems -/

theorem wellFormed_prefixTest (s : String) (h : wellFormedHttpUrl s = true) :
    httpPrefixTest s = true := by
  unfold wellFormedHttpUrl at h
  simp only [Bool.and_eq_true] at h
  exact h.1

/-- **C1.** For every syntactically valid absolute http(s) target URL and
every category string, `runAudit` returns an `AuditReport` and never
raises, for every combination of internal failures of the crawler, the
homepage fallback, the screenshot capture, the lab auditor, the field-data
fetch, the signal producer and the scoring stage (the stage oracles are
universally quantified, so in particular all may fail); the returned
report's `scores` field is always a definite mapping — the scoring
engine's output, or the empty mapping when the scoring stage failed. -/
theorem runAudit_never_raises :
    ∀ (targetUrl siteType : String) (d : AuditDeps),
      wellFormedHttpUrl targetUrl = true →
      d.launchFails = false →
      ∃ r : AuditReport, runAudit targetUrl siteType d = .ok r ∧
        r.scores = auditScores targetUrl siteType d ∧
        (d.scoreFails = true → auditScores targetUrl siteType d = []) ∧
        (d.scoreFails = false →
          auditScores targetUrl siteType d =
            scoringEngine d.rubric d.rubricThresholds d.rubricWeights
              (auditSignals targetUrl d) siteType (some (auditLhForScoring d))) := by
  intro url st d hw hl
  have hp : httpPrefixTest url = true := wellFormed_prefixTest url hw
  have hrun : runAudit url st d = .ok
      { url := url, siteType := st,
        structuredSignals := auditSignals url d,
        scores := auditScores url st d,
        lighthouse :=
          { performance := d.lighthouse.toOption.bind fun m => m.performance,
            accessibility := d.lighthouse.toOption.bind fun m => m.accessibility,
            seo := d.lighthouse.toOption.bind fun m => m.seo,
            bestPractices := d.lighthouse.toOption.bind fun m => m.bestPractices,
            fieldProxy := fieldPerformanceProxy (auditPsi d),
            strategy := if d.formFactorDesktop then "desktop" else "mobile" },
        screenshotBase64 := d.screenshot.toOption } := by
    simp [runAudit, hp, hl]
  exact ⟨_, hrun, rfl, fun hsf => by simp [auditScores, hsf],
    fun hsf => by simp [auditScores, hsf]⟩

/-- Witness for C1: a well-formed URL with every isolated stage failing
still yields a report. -/
theorem runAudit_never_raises_witness :
    (runAudit "https://example.com" "base" failDeps).isOk = true := by
  obtain ⟨r, hr, -, -⟩ :=
    runAudit_never_raises "https://example.com" "base" failDeps (by decide) rfl
  rw [hr]
  rfl

/-- **C9 (counterexample).** At `targetUrl = "http://"` — which passes the
`^https?://` prefix test but is not a well-formed absolute http(s) URL
(empty host) — `runAudit` does not fail with `InvalidInputError`: the
claimed equivalence "fails with InvalidInputError exactly when the URL is
not well-formed" is false at this input. -/
theorem runAudit_invalid_iff_cex :
    ¬ ((runAudit "http://" "base" failDeps = .error .invalidInput) ↔
        wellFormedHttpUrl "http://" = false) := by
  intro h
  have h2 : runAudit "http://" "base" failDeps = .error .invalidInput :=
    h.mpr (by decide)
  have h3 : (runAudit "http://" "base" failDeps).isOk = true := by
    with_unfolding_all rfl
  rw [h2] at h3
  simp [Except.isOk, Except.toBool] at h3

/-- **C9 (amended).** `runAudit` fails with `InvalidInputError` exactly
when the target URL fails the case-insensitive `^https?://` prefix test
(full well-formedness is not checked: a prefix-passing malformed URL such
as `"http://"` proceeds, its crawl-stage failure absorbed); `crawlSite`
fails with `InvalidInputError` exactly when the start URL fails the prefix
test or does not parse as a URL. -/
theorem invalidInput_iff_badPrefixOrParse :
    (∀ (targetUrl siteType : String) (d : AuditDeps),
       runAudit targetUrl siteType d = .error .invalidInput ↔
         httpPrefixTest targetUrl = false) ∧
    (∀ (parse : String → Option RawUrl) (startUrl : String) (cfg : CrawlCfg)
       (smCands : List Cand) (fuel : Nat),
       crawlSite parse startUrl cfg smCands fuel = .error .invalidInput ↔
         (httpPrefixTest startUrl = false ∨ parse startUrl = none)) := by
  constructor
  · intro url st d
    by_cases hp : httpPrefixTest url
    · cases hl : d.launchFails <;> simp [runAudit, hp, hl]
    · have hp2 : httpPrefixTest url = false := by simpa using hp
      simp [runAudit, hp2]
  · intro parse s cfg sm fuel
    by_cases hp : httpPrefixTest s
    · cases hparse : parse s with
      | none => simp [crawlSite, hp, hparse]
      | some u => simp [crawlSite, hp, hparse]
    · have hp2 : httpPrefixTest s = false := by simpa using hp
      simp [crawlSite, hp2]

/-! ### Set and enqueue lemmas -/

theorem mem_setAdd {α : Type} [DecidableEq α] (l : List α) (x y : α) :
    y ∈ setAdd l x ↔ y ∈ l ∨ y = x := by
  unfold setAdd
  split
  · constructor
    · exact Or.inl
    · rintro (h | rfl)
      · exact h
      · assumption
  · simp [List.mem_append]

theorem mem_foldl_setAdd {α : Type} [DecidableEq α] :
    ∀ (l acc : List α) (y : α), y ∈ l.foldl setAdd acc ↔ y ∈ acc ∨ y ∈ l := by
  intro l
  induction l with
  | nil => simp
  | cons x xs ih =>
    intro acc y
    rw [List.foldl_cons, ih, mem_setAdd]
    constructor
    · rintro ((h | rfl) | h)
      · exact Or.inl h
      · exact Or.inr (List.mem_cons_self _ _)
      · exact Or.inr (List.mem_cons_of_mem _ h)
    · rintro (h | h)
      · exact Or.inl (Or.inl h)
      · rcases List.mem_cons.mp h with rfl | h
        · exact Or.inl (Or.inr rfl)
        · exact Or.inr h

theorem mem_setOfList {α : Type} [DecidableEq α] (l : List α) (y : α) :
    y ∈ setOfList l ↔ y ∈ l := by
  unfold setOfList
  rw [mem_foldl_setAdd]
  simp

theorem length_setAdd_le {α : Type} [DecidableEq α] (l : List α) (x : α) :
    (setAdd l x).length ≤ l.length + 1 := by
  unfold setAdd
  split
  · omega
  · simp

theorem length_setOfList_le {α : Type} [DecidableEq α] :
    ∀ (l acc : List α), (l.foldl setAdd acc).length ≤ acc.length + l.length := by
  intro l
  induction l with
  | nil => simp
  | cons x xs ih =>
    intro acc
    rw [List.foldl_cons]
    calc ((xs.foldl setAdd (setAdd acc x)).length)
        ≤ (setAdd acc x).length + xs.length := ih _
      _ ≤ acc.length + 1 + xs.length := by
          have := length_setAdd_le acc x
          omega
      _ = acc.length + (x :: xs).length := by simp; omega

theorem normalizeLink_host (allowed : List String) (c : Cand) (u : CUrl)
    (h : normalizeLink allowed c = some u) : lowerStr u.host ∈ allowed := by
  cases c with
  | junk => simp [normalizeLink] at h
  | link raw asset =>
    unfold normalizeLink at h
    dsimp only at h
    split_ifs at h with hm ha
    all_goals
      first
        | exact Option.noConfusion h
        | (rw [← Option.some_inj.mp h]; exact hm)

theorem enqueueFresh_stable (mp : Nat) :
    ∀ (ns : List CUrl) (st : CrawlSt),
      (enqueueFresh mp st ns).visited = st.visited ∧
      (enqueueFresh mp st ns).results = st.results ∧
      (enqueueFresh mp st ns).allowed = st.allowed ∧
      (enqueueFresh mp st ns).redirects = st.redirects := by
  intro ns
  induction ns with
  | nil => intro st; exact ⟨rfl, rfl, rfl, rfl⟩
  | cons n ns2 ih =>
    intro st
    unfold enqueueFresh
    dsimp only
    split
    · exact ⟨rfl, rfl, rfl, rfl⟩
    · exact ih _

theorem enqueueCommon_stable (mp : Nat) :
    ∀ (ns : List CUrl) (st : CrawlSt),
      (enqueueCommon mp st ns).visited = st.visited ∧
      (enqueueCommon mp st ns).results = st.results ∧
      (enqueueCommon mp st ns).allowed = st.allowed ∧
      (enqueueCommon mp st ns).redirects = st.redirects := by
  intro ns
  induction ns with
  | nil => intro st; exact ⟨rfl, rfl, rfl, rfl⟩
  | cons n ns2 ih =>
    intro st
    unfold enqueueCommon
    split
    · exact ⟨rfl, rfl, rfl, rfl⟩
    · exact ih _

theorem enqueueFresh_queue_sub (mp : Nat) :
    ∀ (ns : List CUrl) (st : CrawlSt) (u : CUrl),
      u ∈ (enqueueFresh mp st ns).queue → u ∈ st.queue ∨ u ∈ ns := by
  intro ns
  induction ns with
  | nil => intro st u h; exact Or.inl h
  | cons n ns2 ih =>
    intro st u h
    unfold enqueueFresh at h
    dsimp only at h
    split at h
    · exact Or.inl h
    · rcases ih _ u h with h2 | h2
      · rcases List.mem_append.mp h2 with h3 | h3
        · exact Or.inl h3
        · exact Or.inr (by simp at h3; simp [h3])
      · exact Or.inr (List.mem_cons_of_mem _ h2)

theorem enqueueCommon_queue_sub (mp : Nat) :
    ∀ (ns : List CUrl) (st : CrawlSt) (u : CUrl),
      u ∈ (enqueueCommon mp st ns).queue → u ∈ st.queue ∨ u ∈ ns := by
  intro ns
  induction ns with
  | nil => intro st u h; exact Or.inl h
  | cons n ns2 ih =>
    intro st u h
    unfold enqueueCommon at h
    split at h
    · exact Or.inl h
    · rcases ih _ u h with h2 | h2
      · rcases List.mem_append.mp h2 with h3 | h3
        · exact Or.inl h3
        · exact Or.inr (by simp at h3; simp [h3])
      · exact Or.inr (List.mem_cons_of_mem _ h2)

theorem crawlFetch_results (cfg : CrawlCfg) (st : CrawlSt) (current : CUrl) :
    (crawlFetch cfg st current).results =
      st.results ++ [⟨current, (cfg.session current).html, (cfg.session current).counts⟩] := by
  unfold crawlFetch
  dsimp only
  cases hw : (cfg.session current).widenHost with
  | none =>
      simp only [hw]
      rw [(enqueueCommon_stable _ _ _).2.1, (enqueueFresh_stable _ _ _).2.1]
  | some h =>
      simp only [hw]
      rw [(enqueueCommon_stable _ _ _).2.1, (enqueueFresh_stable _ _ _).2.1]

theorem crawlInv_widen (start : CUrl) (st : CrawlSt) (h : String)
    (hinv : CrawlInv start st) :
    CrawlInv start
      { st with allowed := (buildAllowedHosts h).foldl setAdd st.allowed,
                redirects := st.redirects ++ [h] } := by
  obtain ⟨hnd, hrv, hra, hqa, hprov⟩ := hinv
  refine ⟨hnd, hrv, ?_, ?_, ?_⟩
  · intro p hp
    exact (mem_foldl_setAdd _ _ _).mpr (Or.inl (hra p hp))
  · intro u hu
    exact (mem_foldl_setAdd _ _ _).mpr (Or.inl (hqa u hu))
  · intro x hx
    rcases (mem_foldl_setAdd _ _ _).mp hx with h1 | h1
    · rcases hprov x h1 with h2 | ⟨r, hr, h2⟩
      · exact Or.inl h2
      · exact Or.inr ⟨r, List.mem_append_left _ hr, h2⟩
    · exact Or.inr ⟨h, List.mem_append_right _ (List.mem_singleton_self _), h1⟩

theorem crawlFetch_core_inv (mp : Nat) (start : CUrl) (stB : CrawlSt) (current : CUrl)
    (html : String) (counts : LinkCounts) (cands : List Cand)
    (hinvB : CrawlInv start stB) (hch : lowerStr current.host ∈ stB.allowed)
    (hcvB : current ∉ stB.visited) :
    CrawlInv start
      (let st2 : CrawlSt :=
        { queue := stB.queue, queued := stB.queued, visited := setAdd stB.visited current,
          results := stB.results ++ [⟨current, html, counts⟩], allowed := stB.allowed,
          seenBuckets := stB.seenBuckets, redirects := stB.redirects }
       let links := setOfList (cands.filterMap (normalizeLink st2.allowed))
       let eligible := links.filter fun n => decide (n ∉ st2.visited) && decide (n ∉ st2.queued)
       let fresh := eligible.filter fun n => decide (bucketKey n ∉ st2.seenBuckets)
       let common := eligible.filter fun n => decide (bucketKey n ∈ st2.seenBuckets)
       enqueueCommon mp (enqueueFresh mp st2 fresh) common) := by
  obtain ⟨hnd, hrv, hra, hqa, hprov⟩ := hinvB
  dsimp only
  refine ⟨?_, ?_, ?_, ?_, ?_⟩
  · rw [(enqueueCommon_stable _ _ _).2.1, (enqueueFresh_stable _ _ _).2.1]
    dsimp only
    rw [List.map_append]
    rw [List.nodup_append]
    refine ⟨hnd, by simp, ?_⟩
    intro a ha hb
    simp at hb
    subst hb
    obtain ⟨p, hp, hpu⟩ := List.mem_map.mp ha
    exact hcvB (hpu ▸ hrv p hp)
  · rw [(enqueueCommon_stable _ _ _).2.1, (enqueueFresh_stable _ _ _).2.1,
      (enqueueCommon_stable _ _ _).1, (enqueueFresh_stable _ _ _).1]
    dsimp only
    intro p hp
    rcases List.mem_append.mp hp with h1 | h1
    · exact (mem_setAdd _ _ _).mpr (Or.inl (hrv p h1))
    · simp at h1
      subst h1
      exact (mem_setAdd _ _ _).mpr (Or.inr rfl)
  · rw [(enqueueCommon_stable _ _ _).2.1, (enqueueFresh_stable _ _ _).2.1,
      (enqueueCommon_stable _ _ _).2.2.1, (enqueueFresh_stable _ _ _).2.2.1]
    dsimp only
    intro p hp
    rcases List.mem_append.mp hp with h1 | h1
    · exact hra p h1
    · simp at h1
      subst h1
      exact hch
  · rw [(enqueueCommon_stable _ _ _).2.2.1, (enqueueFresh_stable _ _ _).2.2.1]
    dsimp only
    intro u hu
    have hlinks : ∀ v : CUrl,
        v ∈ setOfList (cands.filterMap (normalizeLink stB.allowed)) →
        lowerStr v.host ∈ stB.allowed := by
      intro v hv
      obtain ⟨c, _, hc⟩ := List.mem_filterMap.mp ((mem_setOfList _ _).mp hv)
      exact normalizeLink_host _ _ _ hc
    rcases enqueueCommon_queue_sub _ _ _ u hu with h1 | h1
    · rcases enqueueFresh_queue_sub _ _ _ u h1 with h2 | h2
      · exact hqa u h2
      · exact hlinks u (List.mem_filter.mp (List.mem_filter.mp h2).1).1
    · exact hlinks u (List.mem_filter.mp (List.mem_filter.mp h1).1).1
  · rw [(enqueueCommon_stable _ _ _).2.2.1, (enqueueFresh_stable _ _ _).2.2.1,
      (enqueueCommon_stable _ _ _).2.2.2, (enqueueFresh_stable _ _ _).2.2.2]
    dsimp only
    exact hprov

theorem crawlFetch_inv (cfg : CrawlCfg) (start : CUrl) (st : CrawlSt) (current : CUrl)
    (hinv : CrawlInv start st) (hch : lowerStr current.host ∈ st.allowed)
    (hcv : current ∉ st.visited) :
    CrawlInv start (crawlFetch cfg st current) := by
  unfold crawlFetch
  dsimp only
  cases hw : (cfg.session current).widenHost with
  | none =>
      simp only [hw]
      exact crawlFetch_core_inv cfg.maxPages start st current _ _ _ hinv hch hcv
  | some h =>
      simp only [hw]
      exact crawlFetch_core_inv cfg.maxPages start
        { st with allowed := (buildAllowedHosts h).foldl setAdd st.allowed,
                  redirects := st.redirects ++ [h] } current _ _ _
        (crawlInv_widen start st h hinv)
        ((mem_foldl_setAdd _ _ _).mpr (Or.inl hch)) hcv

theorem crawlLoop_inv (cfg : CrawlCfg) (start : CUrl) :
    ∀ (fuel : Nat) (st : CrawlSt),
      CrawlInv start st → st.results.length ≤ cfg.maxPages →
      CrawlInv start (crawlLoop cfg fuel st) ∧
      (crawlLoop cfg fuel st).results.length ≤ cfg.maxPages := by
  intro fuel
  induction fuel with
  | zero => intro st h1 h2; exact ⟨h1, h2⟩
  | succ n ih =>
    intro st h1 h2
    rw [crawlLoop]
    cases hq : st.queue with
    | nil => exact ⟨h1, h2⟩
    | cons current rest =>
      dsimp only
      by_cases hmax : cfg.maxPages ≤ st.results.length
      · rw [if_pos hmax]
        exact ⟨h1, h2⟩
      · rw [if_neg hmax]
        have hinv1 : CrawlInv start
            { st with queue := rest, queued := st.queued.erase current } :=
          ⟨h1.1, h1.2.1, h1.2.2.1,
           fun u hu => h1.2.2.2.1 u (by rw [hq]; exact List.mem_cons_of_mem _ hu),
           h1.2.2.2.2⟩
        by_cases hv : current ∈ st.visited
        · rw [if_pos hv]
          exact ih _ hinv1 h2
        · rw [if_neg hv]
          by_cases hrob : cfg.respectRobots ∧ cfg.disallows ≠ [] ∧
              pathDisallowed current.pathname cfg.disallows
          · rw [if_pos hrob]
            refine ih _ ⟨hinv1.1, ?_, hinv1.2.2.1, hinv1.2.2.2.1, hinv1.2.2.2.2⟩ h2
            intro p hp
            exact (mem_setAdd _ _ _).mpr (Or.inl (hinv1.2.1 p hp))
          · rw [if_neg hrob]
            have hch : lowerStr current.host ∈ st.allowed :=
              h1.2.2.2.1 current (by rw [hq]; exact List.mem_cons_self _ _)
            have hinvF := crawlFetch_inv cfg start
              { st with queue := rest, queued := st.queued.erase current }
              current hinv1 hch hv
            have hlenF : (crawlFetch cfg
                { st with queue := rest, queued := st.queued.erase current }
                current).results.length = st.results.length + 1 := by
              rw [crawlFetch_results]
              simp
            exact ih _ hinvF (by omega)

theorem mem_buildAllowedHosts_self (host : String) :
    lowerStr host ∈ buildAllowedHosts host := by
  unfold buildAllowedHosts
  dsimp only
  rw [mem_setOfList]
  exact List.mem_cons_self _ _

theorem crawlInit_inv (cfg : CrawlCfg) (start : CUrl) (smCands : List Cand) :
    CrawlInv start (crawlInit cfg start smCands) := by
  unfold crawlInit
  dsimp only
  refine ⟨by simp, by simp, by simp, ?_, fun x hx => Or.inl hx⟩
  intro u hu
  rw [mem_setOfList] at hu
  rcases List.mem_cons.mp hu with heq | hu2
  · rw [heq]
    exact mem_buildAllowedHosts_self _
  · obtain ⟨c, _, hc⟩ := List.mem_filterMap.mp hu2
    exact normalizeLink_host _ _ _ hc

/-- **C5.** No crawl returns two Pages with the same canonical URL, the
result list never exceeds `maxPages`, and every returned Page's host is in
the allowed-host set derived from the start host (host, bare, `www.` form,
lower-cased) unless that host entered through the widening recorded after
an observed navigation (redirect); the last conjunct ties `crawlSite`'s
successful results to the BFS run on the canonicalized start URL. -/
theorem crawl_result_invariants :
    ∀ (cfg : CrawlCfg) (start : CUrl) (smCands : List Cand) (fuel : Nat),
      ((crawlRun cfg start smCands fuel).results.map Page.url).Nodup ∧
      (crawlRun cfg start smCands fuel).results.length ≤ cfg.maxPages ∧
      (∀ p ∈ (crawlRun cfg start smCands fuel).results,
         lowerStr p.url.host ∈ buildAllowedHosts start.host ∨
         ∃ r ∈ (crawlRun cfg start smCands fuel).redirects,
           lowerStr p.url.host ∈ buildAllowedHosts r) ∧
      (∀ (parse : String → Option RawUrl) (startUrl : String) (res : List Page),
         crawlSite parse startUrl cfg smCands fuel = .ok res →
         ∃ u, parse startUrl = some u ∧
           res = (crawlRun cfg (canonicalize u) smCands fuel).results) := by
  intro cfg start sm fuel
  obtain ⟨hinv, hlen⟩ := crawlLoop_inv cfg start fuel (crawlInit cfg start sm)
    (crawlInit_inv cfg start sm) (by simp [crawlInit])
  refine ⟨hinv.1, hlen, ?_, ?_⟩
  · intro p hp
    exact hinv.2.2.2.2 _ (hinv.2.2.1 p hp)
  · intro parse s res hok
    unfold crawlSite at hok
    by_cases hp : httpPrefixTest s
    · cases hparse : parse s with
      | none => simp [hp, hparse] at hok
      | some u =>
        simp only [hp, not_true_eq_false, if_false, hparse] at hok
        exact ⟨u, rfl, (Except.ok.injEq _ _ ▸ hok).symm⟩
    · have hp2 : httpPrefixTest s = false := by simpa using hp
      simp [hp2] at hok

/-- Witness for C5: the single page crawled from `startR` has its host in
the start-derived allowed set. -/
theorem crawl_result_invariants_witness :
    lowerStr (Page.mk startR "" zeroCounts).url.host ∈ buildAllowedHosts startR.host ∨
    ∃ r ∈ (crawlRun cfgR startR [] 2).redirects,
      lowerStr (Page.mk startR "" zeroCounts).url.host ∈ buildAllowedHosts r :=
  (crawl_result_invariants cfgR startR [] 2).2.2.1 ⟨startR, "", zeroCounts⟩ (by decide)

/-! ### Robots exclusion lemmas -/

theorem pathDisallowed_of_prefix (path : String) (disallows : List String)
    (hmem : "/private" ∈ disallows)
    (hpref : List.isPrefixOf "/private".data path.data = true) :
    pathDisallowed path disallows = true := by
  unfold pathDisallowed
  rw [List.any_eq_true]
  refine ⟨"/private", hmem, ?_⟩
  have hchunks : ruleChunks "/private" = ["/private".data] := by decide
  rw [hchunks]
  simp [chunkMatch, matchTail, hpref]

theorem crawlLoop_noPriv (cfg : CrawlCfg)
    (hrr : cfg.respectRobots = true) (hmem : "/private" ∈ cfg.disallows) :
    ∀ (fuel : Nat) (st : CrawlSt),
      (∀ p ∈ st.results, List.isPrefixOf "/private".data p.url.pathname.data = false) →
      ∀ p ∈ (crawlLoop cfg fuel st).results,
        List.isPrefixOf "/private".data p.url.pathname.data = false := by
  intro fuel
  induction fuel with
  | zero => intro st h; exact h
  | succ n ih =>
    intro st h
    rw [crawlLoop]
    cases hq : st.queue with
    | nil => exact h
    | cons current rest =>
      dsimp only
      by_cases hmax : cfg.maxPages ≤ st.results.length
      · rw [if_pos hmax]
        exact h
      · rw [if_neg hmax]
        by_cases hv : current ∈ st.visited
        · rw [if_pos hv]
          exact ih _ h
        · rw [if_neg hv]
          by_cases hrob : cfg.respectRobots = true ∧ cfg.disallows ≠ [] ∧
              pathDisallowed current.pathname cfg.disallows = true
          · rw [if_pos hrob]
            exact ih _ h
          · rw [if_neg hrob]
            apply ih
            intro p hp
            rw [crawlFetch_results] at hp
            rcases List.mem_append.mp hp with h1 | h1
            · exact h p h1
            · simp only [List.mem_singleton] at h1
              subst h1
              dsimp only
              by_contra hc
              apply hrob
              refine ⟨hrr, ?_, ?_⟩
              · intro hnil
                rw [hnil] at hmem
                simp at hmem
              · exact pathDisallowed_of_prefix _ _ hmem (by simpa using hc)

/-- **C6.** With politeness enabled and a fetched robots.txt whose
`User-agent: *` block contains `Disallow: /private`, no Page in the crawl
result has a path beginning with `/private`; such a URL popped from the
frontier is skipped, marked visited, and the loop continues (third
conjunct: the one-step equation). -/
theorem crawl_robots_private :
    parseRobots "User-agent: *\nDisallow: /private" = ["/private"] ∧
    (∀ (cfg : CrawlCfg) (start : CUrl) (smCands : List Cand) (fuel : Nat),
       cfg.respectRobots = true →
       "/private" ∈ parseRobots cfg.robotsTxt →
       ∀ p ∈ (crawlRun cfg start smCands fuel).results,
         List.isPrefixOf "/private".data p.url.pathname.data = false) ∧
    (∀ (cfg : CrawlCfg) (st : CrawlSt) (current : CUrl) (rest : List CUrl) (fuel : Nat),
       st.queue = current :: rest →
       st.results.length < cfg.maxPages →
       current ∉ st.visited →
       cfg.respectRobots = true →
       cfg.disallows ≠ [] →
       pathDisallowed current.pathname cfg.disallows = true →
       crawlLoop cfg (fuel + 1) st =
         crawlLoop cfg fuel
           { st with queue := rest, queued := st.queued.erase current,
                     visited := setAdd st.visited current }) := by
  refine ⟨by decide, ?_, ?_⟩
  · intro cfg start sm fuel hrr hmem
    have hmem2 : "/private" ∈ cfg.disallows := by
      unfold CrawlCfg.disallows
      rw [if_pos hrr]
      exact hmem
    apply crawlLoop_noPriv cfg hrr hmem2
    intro p hp
    simp [crawlInit] at hp
  · intro cfg st current rest fuel hq hlen hv hrr hdne hpd
    rw [crawlLoop, hq]
    dsimp only
    rw [if_neg (not_le.mpr hlen), if_neg hv, if_pos ⟨hrr, hdne, hpd⟩]

/-- Witness for C6: popping `/private/a` from the frontier skips it and
marks it visited. -/
theorem crawl_robots_private_witness :
    crawlLoop cfgR 1 stR =
      crawlLoop cfgR 0
        { stR with queue := [],
                   queued := stR.queued.erase ⟨true, "x.com", "/private/a"⟩,
                   visited := setAdd stR.visited ⟨true, "x.com", "/private/a"⟩ } :=
  crawl_robots_private.2.2 cfgR stR ⟨true, "x.com", "/private/a"⟩ [] 0 rfl
    (by decide) (by decide) rfl (by decide) (by decide)

/-! ### Frontier slack lemmas -/

theorem enqueueFresh_sum_le (mp : Nat) :
    ∀ (ns : List CUrl) (st : CrawlSt),
      sumQR (enqueueFresh mp st ns) ≤ max (mp + 8) (sumQR st) := by
  intro ns
  induction ns with
  | nil => intro st; exact le_max_right _ _
  | cons n ns2 ih =>
    intro st
    unfold enqueueFresh
    dsimp only
    split
    · exact le_max_right _ _
    · rename_i hguard
      have hlt : sumQR st < mp + 8 := not_le.mp hguard
      refine le_trans (ih _) ?_
      apply max_le (le_max_left _ _)
      apply le_max_of_le_left
      simp only [sumQR, List.length_append, List.length_singleton]
      simp only [sumQR] at hlt
      omega

theorem enqueueCommon_sum_le (mp : Nat) :
    ∀ (ns : List CUrl) (st : CrawlSt),
      sumQR (enqueueCommon mp st ns) ≤ max (mp + 8) (sumQR st) := by
  intro ns
  induction ns with
  | nil => intro st; exact le_max_right _ _
  | cons n ns2 ih =>
    intro st
    unfold enqueueCommon
    split
    · exact le_max_right _ _
    · rename_i hguard
      have hlt : sumQR st < mp + 8 := not_le.mp hguard
      refine le_trans (ih _) ?_
      apply max_le (le_max_left _ _)
      apply le_max_of_le_left
      simp only [sumQR, List.length_append, List.length_singleton]
      simp only [sumQR] at hlt
      omega

theorem sumQR_crawlFetch_le (cfg : CrawlCfg) (st : CrawlSt) (current : CUrl) :
    sumQR (crawlFetch cfg st current) ≤ max (cfg.maxPages + 8) (sumQR st + 1) := by
  unfold crawlFetch
  dsimp only
  cases hw : (cfg.session current).widenHost with
  | none =>
      simp only [hw]
      refine le_trans (enqueueCommon_sum_le _ _ _) (max_le (le_max_left _ _) ?_)
      refine le_trans (enqueueFresh_sum_le _ _ _) (max_le (le_max_left _ _) ?_)
      apply le_max_of_le_right
      simp only [sumQR, List.length_append, List.length_singleton]
      omega
  | some h =>
      simp only [hw]
      refine le_trans (enqueueCommon_sum_le _ _ _) (max_le (le_max_left _ _) ?_)
      refine le_trans (enqueueFresh_sum_le _ _ _) (max_le (le_max_left _ _) ?_)
      apply le_max_of_le_right
      simp only [sumQR, List.length_append, List.length_singleton]
      omega

theorem crawlLoop_sum_le (cfg : CrawlCfg) :
    ∀ (fuel : Nat) (st : CrawlSt),
      sumQR (crawlLoop cfg fuel st) ≤ max (cfg.maxPages + 8) (sumQR st) := by
  intro fuel
  induction fuel with
  | zero => intro st; exact le_max_right _ _
  | succ n ih =>
    intro st
    rw [crawlLoop]
    cases hq : st.queue with
    | nil => exact le_max_right _ _
    | cons current rest =>
      dsimp only
      by_cases hmax : cfg.maxPages ≤ st.results.length
      · rw [if_pos hmax]
        exact le_max_right _ _
      · rw [if_neg hmax]
        have hsum1 :
            sumQR { st with queue := rest, queued := st.queued.erase current } + 1 =
              sumQR st := by
          simp only [sumQR, hq, List.length_cons]
          omega
        by_cases hv : current ∈ st.visited
        · rw [if_pos hv]
          refine le_trans (ih _) (max_le (le_max_left _ _) ?_)
          apply le_max_of_le_right
          omega
        · rw [if_neg hv]
          by_cases hrob : cfg.respectRobots = true ∧ cfg.disallows ≠ [] ∧
              pathDisallowed current.pathname cfg.disallows = true
          · rw [if_pos hrob]
            refine le_trans (ih _) (max_le (le_max_left _ _) ?_)
            apply le_max_of_le_right
            simp only [sumQR] at hsum1 ⊢
            omega
          · rw [if_neg hrob]
            refine le_trans (ih _) (max_le (le_max_left _ _) ?_)
            refine le_trans (sumQR_crawlFetch_le cfg _ current) ?_
            rw [hsum1]

theorem enqueueFresh_queue_of_full (mp : Nat) :
    ∀ (ns : List CUrl) (st : CrawlSt),
      mp + 8 ≤ sumQR st → (enqueueFresh mp st ns).queue = st.queue := by
  intro ns
  induction ns with
  | nil => intro st _; rfl
  | cons n ns2 ih =>
    intro st hfull
    unfold enqueueFresh
    dsimp only
    split
    · rfl
    · rename_i hguard
      exact absurd hfull hguard

theorem enqueueCommon_queue_of_full (mp : Nat) :
    ∀ (ns : List CUrl) (st : CrawlSt),
      mp + 8 ≤ sumQR st → (enqueueCommon mp st ns).queue = st.queue := by
  intro ns
  induction ns with
  | nil => intro st _; rfl
  | cons n ns2 ih =>
    intro st hfull
    unfold enqueueCommon
    split
    · rfl
    · rename_i hguard
      exact absurd hfull hguard

theorem setOfList_length_le {α : Type} [DecidableEq α] (l : List α) :
    (setOfList l).length ≤ l.length := by
  have := length_setOfList_le l ([] : List α)
  simpa using this

theorem crawlInit_sum_le (cfg : CrawlCfg) (start : CUrl) (smCands : List Cand) :
    sumQR (crawlInit cfg start smCands) ≤ 1 + min cfg.seedLimit smCands.length := by
  unfold crawlInit sumQR
  dsimp only
  simp only [List.length_nil, Nat.zero_add]
  calc (setOfList (start ::
          ((setOfList smCands).take cfg.seedLimit).filterMap
            (normalizeLink (buildAllowedHosts start.host)))).length
      ≤ (start ::
          ((setOfList smCands).take cfg.seedLimit).filterMap
            (normalizeLink (buildAllowedHosts start.host))).length :=
        setOfList_length_le _
    _ = 1 + (((setOfList smCands).take cfg.seedLimit).filterMap
          (normalizeLink (buildAllowedHosts start.host))).length := by
        simp [List.length_cons]
        omega
    _ ≤ 1 + ((setOfList smCands).take cfg.seedLimit).length := by
        have := List.length_filterMap_le
          (normalizeLink (buildAllowedHosts start.host))
          ((setOfList smCands).take cfg.seedLimit)
        omega
    _ ≤ 1 + min cfg.seedLimit smCands.length := by
        rw [List.length_take]
        have := setOfList_length_le smCands
        have := min_le_min (le_refl cfg.seedLimit) this
        omega

/-- **C10 (counterexample).** With `maxPages = 10` (within the contract
range) and the sitemap seed cap at its legal maximum `20`, a sitemap
yielding 20 distinct same-host URLs seeds a frontier of 21 entries, so
immediately after seeding (a reachable crawl state, fuel 0) the frontier
size plus result count exceeds `maxPages + 8 = 18` — the claimed bound
does not hold at every point. -/
theorem crawl_slack_cex :
    cfgX.maxPages = 10 ∧ cfgX.seedLimit = 20 ∧
    cfgX.maxPages + 8 < sumQR (crawlRun cfgX startR smX 0) := by
  have h : 18 < sumQR (crawlRun cfgX startR smX 0) := by decide
  exact ⟨rfl, rfl, h⟩

/-- **C10 (amended).** Once frontier size plus result count reaches
`maxPages + 8`, no further discovered links are enqueued (first conjunct);
hence along the loop the sum never exceeds the larger of `maxPages + 8`
and its value at entry (second conjunct), and over a whole run it is
bounded by the larger of `maxPages + 8` and the seeded frontier size,
which is at most `1 + min seedLimit (sitemap candidate count)` (third
conjunct).  The claim's absolute `maxPages + 8` bound holds at every point
only when the initial seeds already fit within it. -/
theorem crawl_slack_amended :
    (∀ (mp : Nat) (ns : List CUrl) (st : CrawlSt),
       mp + 8 ≤ sumQR st →
       (enqueueFresh mp st ns).queue = st.queue ∧
       (enqueueCommon mp st ns).queue = st.queue) ∧
    (∀ (cfg : CrawlCfg) (fuel : Nat) (st : CrawlSt),
       sumQR (crawlLoop cfg fuel st) ≤ max (cfg.maxPages + 8) (sumQR st)) ∧
    (∀ (cfg : CrawlCfg) (start : CUrl) (smCands : List Cand) (fuel : Nat),
       sumQR (crawlRun cfg start smCands fuel) ≤
         max (cfg.maxPages + 8) (1 + min cfg.seedLimit smCands.length)) := by
  refine ⟨?_, fun cfg fuel st => crawlLoop_sum_le cfg fuel st, ?_⟩
  · intro mp ns st hfull
    exact ⟨enqueueFresh_queue_of_full mp ns st hfull,
           enqueueCommon_queue_of_full mp ns st hfull⟩
  · intro cfg start sm fuel
    refine le_trans (crawlLoop_sum_le cfg fuel _) (max_le (le_max_left _ _) ?_)
    exact le_max_of_le_right (crawlInit_sum_le cfg start sm)

/-- Witness for the amended C10: on the over-full seeded frontier the
enqueue loops push nothing. -/
theorem crawl_slack_amended_witness :
    (enqueueFresh 10 (crawlInit cfgX startR smX) [startR]).queue =
      (crawlInit cfgX startR smX).queue ∧
    (enqueueCommon 10 (crawlInit cfgX startR smX) [startR]).queue =
      (crawlInit cfgX startR smX).queue :=
  crawl_slack_amended.1 10 [startR] (crawlInit cfgX startR smX) (by decide)
